import Mathlib

/-!
Verification of the DNS client socket (`src/socket/dns.rs`) of an embeddable
TCP/IP stack, against its natural-language specification.

The socket code is embedded shallowly: machine integers become `Nat`
(millisecond instants and durations are `Nat`; `u16` ports and transaction ids
are `Nat` values), `heapless::Vec<u8, N>` becomes a `List Nat` with explicit
capacity checks, `ManagedSlice<Option<DnsQuery>>` becomes a `List` of optional
query states together with a flag recording whether the backing storage is
owned (growable).  Fallible Rust functions returning `Result<T>` become
functions returning `Except Error T` paired with the post-state; the one
place the source can panic (`dispatch`'s `unwrap` of `get_source_address`)
is modelled by an `Option` around `dispatch`'s outcome, `none` meaning panic.

The DNS wire codec (`wire/dns.rs`) is not part of the excerpt; only the
socket file uses it.  Those parts are modelled from the specification and
are marked `Modelled from the spec:` in their doc comments.
-/

namespace DnsSpec

/-- The error type of the stack (`crate::Error`), restricted to the variants
the DNS socket and its spec mention. -/
inductive Error where
  | exhausted
  | illegal
  | malformed
  | truncated
  | unaddressable
  | unrecognized
deriving Repr, DecidableEq

/-- An IP address, as its raw bytes (4 bytes for IPv4, 16 for IPv6). -/
abbrev IpAddress := List Nat

/-- `IpAddress::is_unspecified`: all address bytes are zero. -/
def isUnspecified (a : IpAddress) : Bool := a.all (· = 0)

/-- `PendingQuery` (dns.rs lines 52-65).  Instants and durations are in
milliseconds; `type_` is the wire value of the question type (A = 1). -/
structure PendingQuery where
  name : List Nat
  type_ : Nat
  port : Nat
  txid : Nat
  timeout_at : Option Nat
  retransmit_at : Nat
  delay : Nat
  server_idx : Nat
deriving Repr, DecidableEq

/-- `State` (dns.rs lines 44-50): the per-slot query state machine.
`CompletedQuery` is inlined as the list of addresses. -/
inductive QueryState where
  | pending (pq : PendingQuery)
  | completed (addresses : List IpAddress)
  | failure
deriving Repr, DecidableEq

/-- `DnsSocket` (dns.rs lines 80-87).  A slot holding `none` is a free slot;
`queriesOwned` records whether the `ManagedSlice` backing is `Owned`
(growable) rather than `Borrowed`.  The async-only waker field of `DnsQuery`
is feature-gated out in the source and not modelled. -/
structure DnsSocket where
  servers : List IpAddress
  queriesOwned : Bool
  queries : List (Option QueryState)
  hop_limit : Option Nat
deriving Repr, DecidableEq

/-- The parts of `Context` the DNS socket consumes: the clock, one `u16` and
one source-port draw from the RNG, and `get_source_address`. -/
structure Context where
  now : Nat
  randU16 : Nat
  randPort : Nat
  sourceAddr : IpAddress → Option IpAddress

/-- `RETRANSMIT_DELAY` = 1 s (dns.rs line 20), in milliseconds. -/
def RETRANSMIT_DELAY : Nat := 1000

/-- `MAX_RETRANSMIT_DELAY` = 10 s (dns.rs line 21), in milliseconds. -/
def MAX_RETRANSMIT_DELAY : Nat := 10000

/-- `RETRANSMIT_TIMEOUT` = 10 s (dns.rs line 22), in milliseconds. -/
def RETRANSMIT_TIMEOUT : Nat := 10000

/-- `MAX_NAME_LEN` = 255 (dns.rs line 17). -/
def MAX_NAME_LEN : Nat := 255

/-- `MAX_ADDRESS_COUNT` = 4 (dns.rs line 18). -/
def MAX_ADDRESS_COUNT : Nat := 4

/-- `MAX_SERVER_COUNT` = 4 (dns.rs line 19). -/
def MAX_SERVER_COUNT : Nat := 4

/-- `DnsSocket::new` (dns.rs lines 95-104), with `n` empty slots of storage.
Externally allocated storage can only contain `None` slots, because
`DnsQuery` has no public constructor.  The source panics when
`servers.len() > MAX_SERVER_COUNT`; that precondition is carried by the
reachability predicate below. -/
def newSocket (servers : List IpAddress) (owned : Bool) (n : Nat) : DnsSocket :=
  ⟨servers, owned, List.replicate n none, none⟩

/-- `DnsSocket::update_servers` (dns.rs lines 111-113).  The source panics
when the new list exceeds `MAX_SERVER_COUNT`; that precondition is carried
by the reachability predicate. -/
def updateServers (s : DnsSocket) (l : List IpAddress) : DnsSocket :=
  { s with servers := l }

/-- `DnsSocket::set_hop_limit` (dns.rs lines 133-140).  The source panics on
`Some(0)`; that precondition is carried by the reachability predicate. -/
def setHopLimit (s : DnsSocket) (hl : Option Nat) : DnsSocket :=
  { s with hop_limit := hl }

/-- Index of the first free (`none`) slot, if any. -/
def firstNone : List (Option QueryState) → Option Nat
  | [] => none
  | none :: _ => some 0
  | some _ :: rest => (firstNone rest).map (· + 1)

/-- `DnsSocket::find_free_query` (dns.rs lines 142-158): first free slot, or
grow by one `None` slot when the storage is owned, else `Exhausted`. -/
def findFreeQuery (s : DnsSocket) : Except Error (Nat × DnsSocket) :=
  match firstNone s.queries with
  | some i => .ok (i, s)
  | none =>
    if s.queriesOwned then
      .ok (s.queries.length, { s with queries := s.queries ++ [none] })
    else
      .error .exhausted

/-- The `Pending` state created by `start_query_raw` (dns.rs lines
211-220): type A (wire value 1), the context's random txid and source
port, delay 1 s, no timeout, epoch-zero retransmit instant and server
index 0. -/
def freshPending (cx : Context) (raw : List Nat) : PendingQuery :=
  { name := raw, type_ := 1, port := cx.randPort, txid := cx.randU16,
    timeout_at := none, retransmit_at := 0,
    delay := RETRANSMIT_DELAY, server_idx := 0 }

/-- `DnsSocket::start_query_raw` (dns.rs lines 207-225): allocate a slot,
then store the raw name (capacity `MAX_NAME_LEN`, failing with `Exhausted`
beyond it) in a fresh `Pending` state.  A growth performed by
`find_free_query` persists even when the name is oversize. -/
def startQueryRaw (s : DnsSocket) (cx : Context) (raw : List Nat) :
    Except Error Nat × DnsSocket :=
  match findFreeQuery s with
  | .error e => (.error e, s)
  | .ok (h, s1) =>
    if raw.length ≤ MAX_NAME_LEN then
      (.ok h, { s1 with queries := s1.queries.set h (some (.pending (freshPending cx raw))) })
    else
      (.error .exhausted, s1)

/-- `DnsSocket::get_query_result` (dns.rs lines 227-247). -/
def getQueryResult (s : DnsSocket) (h : Nat) :
    Except Error (List IpAddress) × DnsSocket :=
  match s.queries.get? h with
  | none => (.error .illegal, s)
  | some none => (.error .illegal, s)
  | some (some st) =>
    match st with
    | .pending _ => (.error .exhausted, s)
    | .completed addrs => (.ok addrs, { s with queries := s.queries.set h none })
    | .failure => (.error .unaddressable, { s with queries := s.queries.set h none })

/-- `DnsSocket::cancel_query` (dns.rs lines 249-256). -/
def cancelQuery (s : DnsSocket) (h : Nat) : Except Error Unit × DnsSocket :=
  match s.queries.get? h with
  | none => (.error .illegal, s)
  | some none => (.error .illegal, s)
  | some (some _) => (.ok (), { s with queries := s.queries.set h none })

/-! ## The DNS wire codec

`wire/dns.rs` is not part of the excerpt; the definitions in this section
are modelled from the specification (§4.5 name handling, §6 wire format,
§7 error taxonomy).  Packets and names are byte lists. -/

/-- Modelled from the spec: `Packet::transaction_id`, the big-endian u16 at
bytes 0-1 of the 12-byte header (§6). -/
def transactionId (pkt : List Nat) : Nat :=
  (pkt.getD 0 0) * 256 + pkt.getD 1 0

/-- Modelled from the spec: the 16-bit flags word at header bytes 2-3 (§6). -/
def flagsOf (pkt : List Nat) : Nat :=
  (pkt.getD 2 0) * 256 + pkt.getD 3 0

/-- Modelled from the spec: `Packet::opcode`, bits 11-14 of the flags word;
`Query` is wire value 0 (§6). -/
def opcodeOf (pkt : List Nat) : Nat :=
  flagsOf pkt / 2 ^ 11 % 16

/-- Modelled from the spec: the `RESPONSE` flag, the top bit of the flags
word (§6). -/
def responseBit (pkt : List Nat) : Bool :=
  flagsOf pkt / 2 ^ 15 % 2 = 1

/-- Modelled from the spec: `Packet::rcode`, the low nibble of the flags
word; `NXDomain` is wire value 3 (§6). -/
def rcodeOf (pkt : List Nat) : Nat :=
  flagsOf pkt % 16

/-- Modelled from the spec: `Packet::question_count`, header bytes 4-5 (§6). -/
def questionCount (pkt : List Nat) : Nat :=
  (pkt.getD 4 0) * 256 + pkt.getD 5 0

/-- Modelled from the spec: `Packet::answer_record_count`, header bytes
6-7 (§6). -/
def answerCount (pkt : List Nat) : Nat :=
  (pkt.getD 6 0) * 256 + pkt.getD 7 0

/-- Modelled from the spec: `Packet::payload`, the bytes after the 12-byte
header (§6). -/
def payloadOf (pkt : List Nat) : List Nat :=
  pkt.drop 12

/-- Modelled from the spec: one step of the lazy name iterator
(`Packet::parse_name`, §4.5): reads the next label of the name stored in
`cur`, following compression pointers (a length byte with both high bits
set, a 14-bit offset from packet start) through `pkt`.  Returns `none` at
the 0x00 terminator, or the label bytes and the remaining suffix.  The spec
fixes `Malformed` for header-invariant failures and question mismatches
only (§7) and files buffer-exhaustion during packet parsing under
`Truncated`; every parse failure inside a name (truncated label, reserved
label type, or a pointer chain exceeding the fuel that bounds the source's
unbounded iteration, §9) is therefore modelled as `Truncated`. -/
def stepName (pkt : List Nat) : Nat → List Nat → Except Error (Option (List Nat × List Nat))
  | 0, _ => .error .truncated
  | _ + 1, [] => .error .truncated
  | fuel + 1, x :: rest =>
    if x = 0 then .ok none
    else if x < 0x40 then
      if x ≤ rest.length then .ok (some (rest.take x, rest.drop x))
      else .error .truncated
    else if 0xC0 ≤ x then
      match rest with
      | [] => .error .truncated
      | y :: _ => stepName pkt fuel (pkt.drop ((x - 0xC0) * 256 + y))
    else .error .truncated

/-- Fuel for chasing one chain of compression pointers. -/
def jumpFuel (pkt : List Nat) : Nat := pkt.length + 2

/-- `eq_names` (dns.rs lines 511-536) over the lazy iterators: lockstep
label comparison, propagating the first iterator error (left side first),
unequal when one name ends before the other.  The label-count fuel bounds
the source's unbounded iteration on crafted looping packets (§9);
exhausting it is a `Truncated` parse failure. -/
def eqNamesAux (pkt : List Nat) : Nat → List Nat → List Nat → Except Error Bool
  | 0, _, _ => .error .truncated
  | fuel + 1, a, b =>
    match stepName pkt (jumpFuel pkt) a with
    | .error e => .error e
    | .ok oa =>
      match stepName pkt (jumpFuel pkt) b with
      | .error e => .error e
      | .ok ob =>
        match oa, ob with
        | none, none => .ok true
        | none, some _ => .ok false
        | some _, none => .ok false
        | some (la, ra), some (lb, rb) =>
          if la = lb then eqNamesAux pkt fuel ra rb else .ok false

/-- `eq_names` at the fuel used throughout: 256 labels (a wire name of at
most 255 octets has fewer than 128 labels). -/
def eqNames (pkt a b : List Nat) : Except Error Bool :=
  eqNamesAux pkt 256 a b

/-- `copy_name` (dns.rs lines 538-555) over the lazy name iterator: after
`dest.truncate(0)`, push each label's length byte (`as u8`, i.e. mod 256)
and bytes, then the 0x00 terminator, each push failing with `Truncated`
when the capacity `cap` would be exceeded (`heapless` pushes are
all-or-nothing).  Returns the destination contents also on failure, since
the source mutates `dest` in place. -/
def copyNameAux (pkt : List Nat) (cap : Nat) :
    Nat → List Nat → List Nat → Except Error Unit × List Nat
  | 0, _, dest => (.error .truncated, dest)
  | fuel + 1, cur, dest =>
    match stepName pkt (jumpFuel pkt) cur with
    | .error e => (.error e, dest)
    | .ok none =>
      if dest.length + 1 ≤ cap then (.ok (), dest ++ [0])
      else (.error .truncated, dest)
    | .ok (some (l, rest)) =>
      if dest.length + 1 ≤ cap then
        if dest.length + 1 + l.length ≤ cap then
          copyNameAux pkt cap fuel rest (dest ++ l.length % 256 :: l)
        else (.error .truncated, dest ++ [l.length % 256])
      else (.error .truncated, dest)

/-- `copy_name` applied to a packet name, at the same label fuel as
`eqNames`, into an empty destination of capacity `cap`. -/
def copyName (pkt : List Nat) (cap : Nat) (cur : List Nat) :
    Except Error Unit × List Nat :=
  copyNameAux pkt cap 256 cur []

/-- `copy_name` (dns.rs lines 538-555) at an iterator that yields an
already-decoded label sequence: the same body as `copyNameAux`, with the
labels supplied directly. -/
def copyNameList (cap : Nat) : List (List Nat) → List Nat → Except Error Unit × List Nat
  | [], dest =>
    if dest.length + 1 ≤ cap then (.ok (), dest ++ [0])
    else (.error .truncated, dest)
  | l :: ls, dest =>
    if dest.length + 1 ≤ cap then
      if dest.length + 1 + l.length ≤ cap then
        copyNameList cap ls (dest ++ l.length % 256 :: l)
      else (.error .truncated, dest ++ [l.length % 256])
    else (.error .truncated, dest)

/-- Modelled from the spec: the byte length of the name field at the start
of `bs` (labels until a 0x00 terminator, or a 2-byte compression pointer
ending the name), used to locate the fixed fields that follow a name in
questions and records (§6).  Parse failures are `Truncated` (§7).  The
fuel argument makes the recursion structural; every step consumes at
least one byte, so fuel `bs.length` never runs out. -/
def skipNameAux : Nat → List Nat → Except Error Nat
  | _, [] => .error .truncated
  | 0, _ :: _ => .error .truncated
  | fuel + 1, x :: rest =>
    if x = 0 then .ok 1
    else if x < 0x40 then
      if x ≤ rest.length then
        (skipNameAux fuel (rest.drop x)).map (fun n => 1 + x + n)
      else .error .truncated
    else if 0xC0 ≤ x then
      match rest with
      | [] => .error .truncated
      | _ :: _ => .ok 2
    else .error .truncated

/-- `skipNameAux` at its sufficient fuel. -/
def skipName (bs : List Nat) : Except Error Nat :=
  skipNameAux bs.length bs

/-- `Question` (wire form): the name (as the byte suffix it starts at, so
that `parse_name` reads it in place) and the question type. -/
structure Question' where
  name : List Nat
  type_ : Nat
deriving Repr, DecidableEq

/-- Modelled from the spec: `Question::parse` (§6): a name followed by
qtype and qclass (u16 each; the class is not inspected).  Returns the rest
of the buffer and the question; buffer exhaustion is `Truncated` (§7). -/
def parseQuestion (bs : List Nat) : Except Error (List Nat × Question') :=
  match skipName bs with
  | .error e => .error e
  | .ok n =>
    match bs.drop n with
    | t1 :: t2 :: _ :: _ :: rest2 => .ok (rest2, ⟨bs, t1 * 256 + t2⟩)
    | _ => .error .truncated

/-- `RecordData` (wire form): A (4-byte address), AAAA (16-byte address),
CNAME (target name bytes), or an unknown type with its raw data. -/
inductive RecordData' where
  | a (addr : List Nat)
  | aaaa (addr : List Nat)
  | cname (n : List Nat)
  | other (t : Nat) (d : List Nat)
deriving Repr, DecidableEq

/-- `Record` (wire form): owner name (as the byte suffix it starts at) and
the decoded rdata. -/
structure Record' where
  name : List Nat
  data : RecordData'
deriving Repr, DecidableEq

/-- Modelled from the spec: `Record::parse` (§6): a name, then type, class,
TTL and rdlength (10 bytes), then `rdlength` bytes of rdata.  Supported
rdata are A (type 1, exactly 4 bytes), AAAA (type 28, exactly 16 bytes)
and CNAME (type 5); an A/AAAA record of the wrong rdata length, like any
buffer exhaustion, is a `Truncated` parse failure (§7 reserves `Malformed`
for header invariants and question mismatches). -/
def parseRecord (bs : List Nat) : Except Error (List Nat × Record') :=
  match skipName bs with
  | .error e => .error e
  | .ok n =>
    match bs.drop n with
    | t1 :: t2 :: _ :: _ :: _ :: _ :: _ :: _ :: len1 :: len2 :: rest2 =>
      let rdlen := len1 * 256 + len2
      if rdlen ≤ rest2.length then
        let rdata := rest2.take rdlen
        let remaining := rest2.drop rdlen
        let t := t1 * 256 + t2
        if t = 1 then
          if rdlen = 4 then .ok (remaining, ⟨bs, .a rdata⟩)
          else .error .truncated
        else if t = 28 then
          if rdlen = 16 then .ok (remaining, ⟨bs, .aaaa rdata⟩)
          else .error .truncated
        else if t = 5 then .ok (remaining, ⟨bs, .cname rdata⟩)
        else .ok (remaining, ⟨bs, .other t rdata⟩)
      else .error .truncated
    | _ => .error .truncated

/-! ## Ingress: `process` -/

/-- `Vec::<_, MAX_ADDRESS_COUNT>::push` as `process` uses it (dns.rs lines
348, 355): overflow beyond 4 addresses is ignored silently. -/
def pushAddr (addrs : List IpAddress) (a : IpAddress) : List IpAddress :=
  if addrs.length < MAX_ADDRESS_COUNT then addrs ++ [a] else addrs

/-- The answer-record loop of `process` (dns.rs lines 335-375), iterating
exactly `answer_record_count` times over the record cursor: records whose
owner name differs from the slot's current name are skipped, A/AAAA
addresses are collected (overflow ignored), a CNAME overwrites the slot's
name via `copy_name` (in place, so a later failure keeps the partial
write), unknown types are ignored, and any parse error stops the loop and
is returned with the state reached so far. -/
def processRecords (pkt : List Nat) :
    Nat → List Nat → List IpAddress → PendingQuery →
    Except Error Unit × List IpAddress × PendingQuery
  | 0, _, addrs, pq => (.ok (), addrs, pq)
  | n + 1, payload, addrs, pq =>
    match parseRecord payload with
    | .error e => (.error e, addrs, pq)
    | .ok (payload2, r) =>
      match eqNames pkt r.name pq.name with
      | .error e => (.error e, addrs, pq)
      | .ok false => processRecords pkt n payload2 addrs pq
      | .ok true =>
        match r.data with
        | .a addr => processRecords pkt n payload2 (pushAddr addrs addr) pq
        | .aaaa addr => processRecords pkt n payload2 (pushAddr addrs addr) pq
        | .cname nm =>
          match copyName pkt MAX_NAME_LEN nm with
          | (.error e, d) => (.error e, addrs, { pq with name := d })
          | (.ok (), newName) => processRecords pkt n payload2 addrs { pq with name := newName }
        | .other _ _ => processRecords pkt n payload2 addrs pq

/-- The slot-matching loop of `process` (dns.rs lines 308-390): scan the
slots in order; a `Pending` slot matches when the UDP destination port and
the packet transaction id equal the slot's `port` and `txid`.  On a match
with rcode `NXDomain` (3) the slot becomes `Failure` and the scan
continues; otherwise the question is parsed and checked against the slot
(type mismatch and name mismatch are `Malformed`), the answer records are
processed, the slot transitions to `Completed` or (with no addresses)
`Failure`, and the call returns.  Errors propagate with all mutations made
so far kept, since the source mutates `self` in place. -/
def processSlots (pkt : List Nat) (dstPort : Nat) :
    List (Option QueryState) → Except Error Unit × List (Option QueryState)
  | [] => (.ok (), [])
  | slot :: rest =>
    match slot with
    | some (.pending pq) =>
      if dstPort = pq.port ∧ transactionId pkt = pq.txid then
        if rcodeOf pkt = 3 then
          let (r, rest') := processSlots pkt dstPort rest
          (r, some .failure :: rest')
        else
          match parseQuestion (payloadOf pkt) with
          | .error e => (.error e, slot :: rest)
          | .ok (payload1, question) =>
            if question.type_ ≠ pq.type_ then (.error .malformed, slot :: rest)
            else
              match eqNames pkt question.name pq.name with
              | .error e => (.error e, slot :: rest)
              | .ok false => (.error .malformed, slot :: rest)
              | .ok true =>
                match processRecords pkt (answerCount pkt) payload1 [] pq with
                | (.error e, _, pq') => (.error e, some (.pending pq') :: rest)
                | (.ok (), addrs, _) =>
                  let st := if addrs = [] then QueryState.failure
                            else QueryState.completed addrs
                  (.ok (), some st :: rest)
      else
        let (r, rest') := processSlots pkt dstPort rest
        (r, slot :: rest')
    | _ =>
      let (r, rest') := processSlots pkt dstPort rest
      (r, slot :: rest')

/-- `DnsSocket::process` (dns.rs lines 273-391).  The header checks come
first: `Packet::new_checked` (modelled from the spec: the packet must hold
the 12-byte header, failing with `Malformed` on truncation, §4.3 step 1),
then opcode = Query, the `RESPONSE` flag, and question count 1, each
failing with `Malformed`; then the slot scan runs.  The `Context` argument
is unused by the source. -/
def process (s : DnsSocket) (dstPort : Nat) (payload : List Nat) :
    Except Error Unit × DnsSocket :=
  if payload.length < 12 then (.error .malformed, s)
  else if opcodeOf payload ≠ 0 then (.error .malformed, s)
  else if ¬responseBit payload then (.error .malformed, s)
  else if questionCount payload ≠ 1 then (.error .malformed, s)
  else
    let (r, qs) := processSlots payload dstPort s.queries
    (r, { s with queries := qs })

/-! ## Egress: `dispatch` -/

/-- The `(IpRepr, UdpRepr, payload)` triple handed to the `emit` callback
(dns.rs lines 439-475).  The DNS payload emission (`Repr::emit` of
`wire/dns.rs`, absent from the excerpt) is abstracted by the `Repr` fields
that determine it: the transaction id and the question name. -/
structure EmitData where
  src : IpAddress
  dst : IpAddress
  hopLimit : Nat
  srcPort : Nat
  txid : Nat
  name : List Nat
deriving Repr, DecidableEq

/-- Outcome of visiting one `Pending` slot in `dispatch`'s scan, before any
emission: transition to `Failure`, keep waiting (backoff gate), or ready to
emit; the carried `PendingQuery` reflects the timeout arming/firing
updates. -/
inductive VisitResult where
  | toFailure
  | waiting (pq : PendingQuery)
  | ready (pq : PendingQuery)
deriving Repr, DecidableEq

/-- The timeout-firing update of `dispatch` (dns.rs lines 410-418): re-arm
the timeout, reset the retransmit instant and delay, and move to the next
server. -/
def fireUpdate (now : Nat) (pq : PendingQuery) : PendingQuery :=
  { pq with
    timeout_at := some (now + RETRANSMIT_TIMEOUT)
    retransmit_at := 0
    delay := RETRANSMIT_DELAY
    server_idx := pq.server_idx + 1 }

/-- The timeout arming and firing of `dispatch` (dns.rs lines 401-418):
arm the timeout if unarmed, and apply `fireUpdate` when the armed timeout
has expired. -/
def armFire (now : Nat) (pq : PendingQuery) : PendingQuery :=
  let t := pq.timeout_at.getD (now + RETRANSMIT_TIMEOUT)
  let pq1 := { pq with timeout_at := some t }
  if t < now then fireUpdate now pq1 else pq1

/-- The per-slot logic of `dispatch` before emission (dns.rs lines
401-437): arm/fire the timeout, fail the slot when the servers are
exhausted or the selected server address is unspecified, and otherwise
wait for or pass the backoff gate. -/
def visitPending (servers : List IpAddress) (now : Nat) (pq : PendingQuery) :
    VisitResult :=
  if servers.length ≤ (armFire now pq).server_idx then .toFailure
  else if isUnspecified (servers.getD (armFire now pq).server_idx []) then .toFailure
  else if now < (armFire now pq).retransmit_at then .waiting (armFire now pq)
  else .ready (armFire now pq)

/-- The backoff advance after a successful emission (dns.rs lines
480-481). -/
def advanceBackoff (now : Nat) (pq : PendingQuery) : PendingQuery :=
  { pq with
    retransmit_at := now + pq.delay
    delay := min MAX_RETRANSMIT_DELAY (pq.delay * 2) }

/-- The slot scan of `dispatch` (dns.rs lines 399-488): act on the first
`Pending` slot that is ready, returning after at most one emission.
`none` models the panic of the source's `unwrap` when the context has no
source address for the selected server (dns.rs line 459).  On emit error
the error is swallowed (`Ok` is returned) and the slot keeps its pre-emit
state; on success the backoff advances.  With no actionable slot the scan
ends with `Exhausted`, keeping the mutations made to the visited slots. -/
def dispatchSlots (servers : List IpAddress) (hop : Nat) (cx : Context)
    (emit : EmitData → Except Error Unit) :
    List (Option QueryState) → Option (Except Error Unit × List (Option QueryState))
  | [] => some (.error .exhausted, [])
  | slot :: rest =>
    match slot with
    | some (.pending pq) =>
      match visitPending servers cx.now pq with
      | .toFailure =>
        (dispatchSlots servers hop cx emit rest).map
          (fun p => (p.1, some .failure :: p.2))
      | .waiting pq2 =>
        (dispatchSlots servers hop cx emit rest).map
          (fun p => (p.1, some (.pending pq2) :: p.2))
      | .ready pq2 =>
        match cx.sourceAddr (servers.getD pq2.server_idx []) with
        | none => none
        | some src =>
          match emit ⟨src, servers.getD pq2.server_idx [], hop,
              pq2.port, pq2.txid, pq2.name⟩ with
          | .error _ => some (.ok (), some (.pending pq2) :: rest)
          | .ok () => some (.ok (), some (.pending (advanceBackoff cx.now pq2)) :: rest)
    | some (.completed a) =>
      (dispatchSlots servers hop cx emit rest).map
        (fun p => (p.1, some (.completed a) :: p.2))
    | some .failure =>
      (dispatchSlots servers hop cx emit rest).map
        (fun p => (p.1, some .failure :: p.2))
    | none =>
      (dispatchSlots servers hop cx emit rest).map
        (fun p => (p.1, none :: p.2))

/-- `DnsSocket::dispatch` (dns.rs lines 393-489), with the default hop
limit 64; `none` is the source's panic. -/
def dispatch (s : DnsSocket) (cx : Context) (emit : EmitData → Except Error Unit) :
    Option (Except Error Unit × DnsSocket) :=
  (dispatchSlots s.servers (s.hop_limit.getD 64) cx emit s.queries).map
    (fun p => (p.1, { s with queries := p.2 }))

/-! ## Reachable states -/

/-- The states reachable by sequences of public operations, with the
source's documented panic preconditions (`new` and `update_servers` with
more than `MAX_SERVER_COUNT` servers, `set_hop_limit(Some(0))`) as
side conditions and `dispatch` contributing a state only when it does not
panic.  `start_query` (dns.rs lines 165-201) mutates the socket only
through its final `start_query_raw` call, so the `startRaw` constructor
covers it. -/
inductive Reachable : DnsSocket → Prop where
  | new : ∀ servers owned n, servers.length ≤ MAX_SERVER_COUNT →
      Reachable (newSocket servers owned n)
  | update : ∀ s l, Reachable s → l.length ≤ MAX_SERVER_COUNT →
      Reachable (updateServers s l)
  | hop : ∀ s hl, Reachable s → hl ≠ some 0 → Reachable (setHopLimit s hl)
  | startRaw : ∀ s cx raw, Reachable s → Reachable (startQueryRaw s cx raw).2
  | result : ∀ s h, Reachable s → Reachable (getQueryResult s h).2
  | cancel : ∀ s h, Reachable s → Reachable (cancelQuery s h).2
  | proc : ∀ s p pl, Reachable s → Reachable (process s p pl).2
  | disp : ∀ s cx emit r, Reachable s → dispatch s cx emit = some r →
      Reachable r.2

/-- Like `Reachable`, but every `update_servers` call supplies a list at
least as long as the current one. -/
inductive ReachableNS : DnsSocket → Prop where
  | new : ∀ servers owned n, servers.length ≤ MAX_SERVER_COUNT →
      ReachableNS (newSocket servers owned n)
  | update : ∀ s l, ReachableNS s → l.length ≤ MAX_SERVER_COUNT →
      s.servers.length ≤ l.length → ReachableNS (updateServers s l)
  | hop : ∀ s hl, ReachableNS s → hl ≠ some 0 → ReachableNS (setHopLimit s hl)
  | startRaw : ∀ s cx raw, ReachableNS s → ReachableNS (startQueryRaw s cx raw).2
  | result : ∀ s h, ReachableNS s → ReachableNS (getQueryResult s h).2
  | cancel : ∀ s h, ReachableNS s → ReachableNS (cancelQuery s h).2
  | proc : ∀ s p pl, ReachableNS s → ReachableNS (process s p pl).2
  | disp : ∀ s cx emit r, ReachableNS s → dispatch s cx emit = some r →
      ReachableNS r.2

/-- A free query slot is available to `find_free_query`: some slot is
`None`, or the backing storage is owned and can grow. -/
def freeAvail (s : DnsSocket) : Bool :=
  s.queries.any (fun q => q.isNone) || s.queriesOwned

/-- Whether a `Result` is a success, used to state success/failure of the
socket operations. -/
def exceptOk {α : Type} : Except Error α → Bool
  | .ok _ => true
  | .error _ => false

/-! ## Theorems -/

theorem firstNone_spec : ∀ (qs : List (Option QueryState)) i,
    firstNone qs = some i → qs.get? i = some none := by
  intro qs
  induction qs with
  | nil => intro i h; simp [firstNone] at h
  | cons q rest ih =>
    intro i h
    match q with
    | none =>
      simp [firstNone] at h
      subst h; rfl
    | some st =>
      simp only [firstNone, Option.map_eq_some'] at h
      obtain ⟨j, hj, rfl⟩ := h
      simpa using ih j hj

theorem firstNone_lt_length (qs : List (Option QueryState)) (i : Nat)
    (h : firstNone qs = some i) : i < qs.length := by
  have := firstNone_spec qs i h
  by_contra hlt
  rw [List.get?_eq_none.2 (by omega)] at this
  exact Option.noConfusion this

theorem firstNone_none : ∀ (qs : List (Option QueryState)),
    firstNone qs = none → ∀ i, qs.get? i ≠ some none := by
  intro qs
  induction qs with
  | nil => intro _ i h; cases i <;> simp [List.get?] at h
  | cons q rest ih =>
    intro h i
    match q with
    | none => simp [firstNone] at h
    | some st =>
      simp only [firstNone, Option.map_eq_none'] at h
      cases i with
      | zero => simp [List.get?]
      | succ j => simpa using ih h j

/-- C7: `get_query_result` returns `Illegal` for a handle that refers to no
slot or a freed slot; `Exhausted` for a `Pending` slot, which stays
occupied; the stored addresses for a `Completed` slot, freeing it; and
`Unaddressable` for a `Failure` slot, freeing it. -/
theorem c7_get_query_result_cases (s : DnsSocket) (h : Nat) :
    ((s.queries.get? h = none ∨ s.queries.get? h = some none) →
      getQueryResult s h = (.error .illegal, s))
    ∧ (∀ pq, s.queries.get? h = some (some (.pending pq)) →
      getQueryResult s h = (.error .exhausted, s))
    ∧ (∀ addrs, s.queries.get? h = some (some (.completed addrs)) →
      getQueryResult s h = (.ok addrs, { s with queries := s.queries.set h none }))
    ∧ (s.queries.get? h = some (some .failure) →
      getQueryResult s h = (.error .unaddressable, { s with queries := s.queries.set h none })) := by
  refine ⟨?_, ?_, ?_, ?_⟩
  · rintro (hq | hq) <;> rw [List.get?_eq_getElem?] at hq <;> simp [getQueryResult, hq]
  · intro pq hq; rw [List.get?_eq_getElem?] at hq; simp [getQueryResult, hq]
  · intro addrs hq; rw [List.get?_eq_getElem?] at hq; simp [getQueryResult, hq]
  · intro hq; rw [List.get?_eq_getElem?] at hq; simp [getQueryResult, hq]

/-- A socket exercising all four `get_query_result` outcomes. -/
def c7sock : DnsSocket :=
  ⟨[[10, 0, 0, 1]], false,
   [none,
    some (.pending ⟨[1, 97, 0], 1, 4000, 7, none, 0, 1000, 0⟩),
    some (.completed [[1, 2, 3, 4]]),
    some .failure], none⟩

/-- Witness for C7 at concrete handles: an out-of-range handle and a freed
slot give `Illegal`, a pending slot gives `Exhausted` without freeing, a
completed slot returns its addresses and is freed, a failure slot gives
`Unaddressable` and is freed. -/
theorem c7_witness :
    getQueryResult c7sock 9 = (.error .illegal, c7sock)
    ∧ getQueryResult c7sock 0 = (.error .illegal, c7sock)
    ∧ getQueryResult c7sock 1 = (.error .exhausted, c7sock)
    ∧ getQueryResult c7sock 2 =
        (.ok [[1, 2, 3, 4]], { c7sock with queries := c7sock.queries.set 2 none })
    ∧ getQueryResult c7sock 3 =
        (.error .unaddressable, { c7sock with queries := c7sock.queries.set 3 none }) :=
  ⟨(c7_get_query_result_cases c7sock 9).1 (Or.inl rfl),
   (c7_get_query_result_cases c7sock 0).1 (Or.inr rfl),
   (c7_get_query_result_cases c7sock 1).2.1 _ rfl,
   (c7_get_query_result_cases c7sock 2).2.2.1 _ rfl,
   (c7_get_query_result_cases c7sock 3).2.2.2 rfl⟩

theorem firstNone_isSome (qs : List (Option QueryState)) :
    (firstNone qs).isSome = qs.any (fun q => q.isNone) := by
  induction qs with
  | nil => rfl
  | cons q rest ih =>
    match q with
    | none => rfl
    | some st => simpa [firstNone] using ih

/-- When a free slot is available, `find_free_query` succeeds with an
in-range handle onto a socket whose other state is unchanged. -/
theorem findFree_ok (s : DnsSocket) (hf : freeAvail s = true) :
    ∃ i s1, findFreeQuery s = .ok (i, s1) ∧ i < s1.queries.length ∧
      s1.servers = s.servers ∧ s1.queriesOwned = s.queriesOwned ∧
      s1.hop_limit = s.hop_limit := by
  unfold findFreeQuery
  rcases hfn : firstNone s.queries with _ | i
  · have hany : s.queries.any (fun q => q.isNone) = false := by
      have h1 := firstNone_isSome s.queries
      rw [hfn] at h1
      exact h1.symm
    have how : s.queriesOwned = true := by
      unfold freeAvail at hf
      rw [hany] at hf
      simpa using hf
    refine ⟨s.queries.length, { s with queries := s.queries ++ [none] }, ?_, by simp, rfl, rfl, rfl⟩
    rw [how]
    rfl
  · exact ⟨i, s, rfl, firstNone_lt_length s.queries i hfn, rfl, rfl, rfl⟩

/-- With no free slot and borrowed storage, `find_free_query` fails with
`Exhausted`. -/
theorem findFree_err (s : DnsSocket) (hf : freeAvail s = false) :
    findFreeQuery s = .error .exhausted := by
  unfold freeAvail at hf
  rw [Bool.or_eq_false_iff] at hf
  have hfn : firstNone s.queries = none := by
    have h1 := firstNone_isSome s.queries
    rw [hf.1] at h1
    exact Option.not_isSome_iff_eq_none.1 (by simp [h1])
  unfold findFreeQuery
  rw [hfn, hf.2]
  rfl

/-- C10: `start_query_raw` validates nothing about the wire format of its
argument: with a free slot and a name of at most 255 bytes it succeeds,
storing exactly those bytes in a fresh `Pending` slot with type A, delay
1 s, no timeout, epoch-zero retransmit instant and server index 0; it
fails exactly when the name exceeds 255 bytes or no free slot is
available, and then the error is `Exhausted`. -/
theorem c10_start_query_raw_no_validation (s : DnsSocket) (cx : Context) (raw : List Nat) :
    (raw.length ≤ MAX_NAME_LEN → freeAvail s = true →
      exceptOk (startQueryRaw s cx raw).1 = true)
    ∧ (∀ h, (startQueryRaw s cx raw).1 = .ok h →
      (startQueryRaw s cx raw).2.queries.get? h =
        some (some (.pending (freshPending cx raw))))
    ∧ (exceptOk (startQueryRaw s cx raw).1 = false ↔
        (MAX_NAME_LEN < raw.length ∨ freeAvail s = false))
    ∧ (∀ e, (startQueryRaw s cx raw).1 = .error e → e = .exhausted) := by
  by_cases hf : freeAvail s = true
  · obtain ⟨i, s1, hok, hlt, -, -, -⟩ := findFree_ok s hf
    by_cases hlen : raw.length ≤ MAX_NAME_LEN
    · have hval : startQueryRaw s cx raw =
          (.ok i, { s1 with queries := s1.queries.set i (some (.pending (freshPending cx raw))) }) := by
        unfold startQueryRaw
        rw [hok]
        simp [hlen]
      rw [hval]
      refine ⟨fun _ _ => rfl, ?_, ?_, ?_⟩
      · intro h hh
        cases hh
        simp only
        rw [List.get?_set_eq_of_lt _ hlt]
      · constructor
        · intro hko; exact absurd hko (by simp [exceptOk])
        · rintro (hc | hc)
          · omega
          · rw [hf] at hc; exact absurd hc (by decide)
      · intro e he; exact absurd he (by simp)
    · have hval : startQueryRaw s cx raw = (.error .exhausted, s1) := by
        unfold startQueryRaw
        rw [hok]
        simp [hlen]
      rw [hval]
      refine ⟨fun hc => absurd hc hlen, ?_, ?_, ?_⟩
      · intro h hh; exact absurd hh (by simp)
      · exact ⟨fun _ => Or.inl (by omega), fun _ => rfl⟩
      · intro e he; cases he; rfl
  · have hf' : freeAvail s = false := by
      cases h : freeAvail s
      · rfl
      · exact absurd h hf
    have hval : startQueryRaw s cx raw = (.error .exhausted, s) := by
      unfold startQueryRaw
      rw [findFree_err s hf']
    rw [hval]
    refine ⟨fun _ hc => absurd hc hf, ?_, ?_, ?_⟩
    · intro h hh; exact absurd hh (by simp)
    · exact ⟨fun _ => Or.inr hf', fun _ => rfl⟩
    · intro e he; cases he; rfl

/-- Witness context with fixed RNG draws. -/
def wCx : Context := ⟨0, 7, 4000, fun _ => some [192, 168, 0, 1]⟩

/-- A borrowed one-slot socket whose only slot is occupied. -/
def c10full : DnsSocket := ⟨[[10, 0, 0, 1]], false, [some .failure], none⟩

/-- Witness for C10: on a fresh one-slot socket, starting a query with the
raw bytes `[0xFF, 1]` — not a valid label sequence — succeeds and stores
exactly those bytes; on a full borrowed socket the result is an error. -/
theorem c10_witness :
    exceptOk (startQueryRaw (newSocket [[10, 0, 0, 1]] false 1) wCx [0xFF, 1]).1 = true
    ∧ (startQueryRaw (newSocket [[10, 0, 0, 1]] false 1) wCx [0xFF, 1]).2.queries.get? 0 =
        some (some (.pending (freshPending wCx [0xFF, 1])))
    ∧ exceptOk (startQueryRaw c10full wCx [0]).1 = false :=
  ⟨(c10_start_query_raw_no_validation (newSocket [[10, 0, 0, 1]] false 1) wCx [0xFF, 1]).1
      (by decide) (by decide),
   (c10_start_query_raw_no_validation (newSocket [[10, 0, 0, 1]] false 1) wCx [0xFF, 1]).2.1
      0 rfl,
   ((c10_start_query_raw_no_validation c10full wCx [0]).2.2.1).2 (Or.inr (by decide))⟩

/-- A socket with one pending query that is due for emission. -/
def c3sock : DnsSocket :=
  ⟨[[10, 0, 0, 1]], false,
   [some (.pending ⟨[1, 97, 0], 1, 4000, 7, none, 0, 1000, 0⟩)], none⟩

/-- A context whose `get_source_address` has no answer for any address. -/
def c3cx : Context := ⟨0, 7, 4000, fun _ => none⟩

/-- An emit callback that always succeeds. -/
def emitOk : EmitData → Except Error Unit := fun _ => .ok ()

/-- C3 (the code, not the claim): when `dispatch` selects a due `Pending`
slot and `get_source_address` returns `None` for the chosen resolver, the
source panics (the `unwrap` at dns.rs line 459, marked `TODO remove
unwrap`) instead of failing the dispatch: the run has no non-panic
outcome. -/
theorem c3_dispatch_panics_on_missing_source_address :
    dispatch c3sock c3cx emitOk = none := rfl

/-- Modelled from the spec: a valid uncompressed wire-format name, decoded
into its label sequence (§4.5: a sequence of length-prefixed labels — a
length byte below 0x40, so 1-63 octets — terminated by a single 0x00
byte, the name being exactly these bytes).  The fuel argument makes the
recursion structural; every step consumes at least one byte, so fuel
`bs.length` never runs out. -/
def decodeNameAux : Nat → List Nat → Option (List (List Nat))
  | _, [] => none
  | 0, _ :: _ => none
  | fuel + 1, x :: rest =>
    if x = 0 then
      if rest = [] then some [] else none
    else if x ≤ 63 ∧ x ≤ rest.length then
      (decodeNameAux fuel (rest.drop x)).map (rest.take x :: ·)
    else none

/-- `decodeNameAux` at its sufficient fuel. -/
def decodeName (bs : List Nat) : Option (List (List Nat)) :=
  decodeNameAux bs.length bs

theorem decode_copyNameList : ∀ (n : Nat) (bs : List Nat) (ls : List (List Nat)) (dest : List Nat),
    decodeNameAux n bs = some ls → dest.length + bs.length ≤ MAX_NAME_LEN →
    copyNameList MAX_NAME_LEN ls dest = (.ok (), dest ++ bs) := by
  intro n
  induction n with
  | zero =>
    intro bs ls dest hdec _
    match bs with
    | [] => exact absurd hdec (by simp [decodeNameAux])
    | x :: rest => exact absurd hdec (by simp [decodeNameAux])
  | succ m ih =>
    intro bs ls dest hdec hcap
    match bs with
    | [] => exact absurd hdec (by simp [decodeNameAux])
    | x :: rest =>
      by_cases hx : x = 0
      · subst hx
        rw [decodeNameAux] at hdec
        simp only [if_pos rfl] at hdec
        by_cases hrest : rest = ([] : List Nat)
        · subst hrest
          rw [if_pos rfl] at hdec
          cases hdec
          unfold copyNameList
          rw [if_pos (by simpa using hcap)]
        · rw [if_neg hrest] at hdec
          exact Option.noConfusion hdec
      · rw [decodeNameAux] at hdec
        rw [if_neg hx] at hdec
        by_cases hb : x ≤ 63 ∧ x ≤ rest.length
        · rw [if_pos hb] at hdec
          simp only [Option.map_eq_some'] at hdec
          obtain ⟨ls', hls', rfl⟩ := hdec
          have hlen_take : (rest.take x).length = x := by
            rw [List.length_take]
            omega
          unfold copyNameList
          have hcap1 : dest.length + 1 ≤ MAX_NAME_LEN := by
            simp only [List.length_cons] at hcap
            omega
          rw [if_pos hcap1]
          have hcap2 : dest.length + 1 + (rest.take x).length ≤ MAX_NAME_LEN := by
            simp only [List.length_cons] at hcap
            rw [hlen_take]
            omega
          rw [if_pos hcap2]
          have hmod : (rest.take x).length % 256 = x := by
            rw [hlen_take]
            exact Nat.mod_eq_of_lt (by omega)
          rw [hmod]
          have hres := ih (rest.drop x) ls' (dest ++ x :: rest.take x)
            hls'
            (by simp only [List.length_append, List.length_cons, hlen_take,
                  List.length_drop] at hcap ⊢; omega)
          rw [hres]
          congr 1
          simp only [List.append_assoc, List.cons_append]
          congr 2
          exact List.take_append_drop x rest
        · rw [if_neg hb] at hdec
          exact Option.noConfusion hdec

/-- C9: decoding a valid uncompressed wire-format name of at most 255
bytes into its label sequence and re-encoding that sequence the way
`copy_name` writes it (length byte, label bytes, final 0x00, into a
buffer of capacity `MAX_NAME_LEN`) reproduces exactly the original byte
sequence. -/
theorem c9_name_roundtrip (bs : List Nat) (ls : List (List Nat))
    (hdec : decodeName bs = some ls) (hlen : bs.length ≤ MAX_NAME_LEN) :
    copyNameList MAX_NAME_LEN ls [] = (.ok (), bs) :=
  decode_copyNameList bs.length bs ls [] hdec (by simpa using hlen)

/-- Witness for C9 at the wire name for `rust.org`
(`\x04rust\x03org\x00`): its decoding and exact re-encoding. -/
theorem c9_witness :
    decodeName [4, 114, 117, 115, 116, 3, 111, 114, 103, 0] =
      some [[114, 117, 115, 116], [111, 114, 103]]
    ∧ copyNameList MAX_NAME_LEN [[114, 117, 115, 116], [111, 114, 103]] [] =
      (.ok (), [4, 114, 117, 115, 116, 3, 111, 114, 103, 0]) :=
  ⟨by decide,
   c9_name_roundtrip [4, 114, 117, 115, 116, 3, 111, 114, 103, 0]
     [[114, 117, 115, 116], [111, 114, 103]] (by decide) (by decide)⟩

/-- The packet passes `process`'s header checks: the 12-byte header is
present, the opcode is Query, the `RESPONSE` flag is set and the question
count is 1 (dns.rs lines 291-305). -/
def headerOk (pl : List Nat) : Bool :=
  decide (12 ≤ pl.length) && decide (opcodeOf pl = 0) &&
    responseBit pl && decide (questionCount pl = 1)

/-- The packet's `(dst_port, txid)` pair matches no `Pending` slot of the
socket (dns.rs line 310). -/
def noMatchB (s : DnsSocket) (p : Nat) (pl : List Nat) : Bool :=
  s.queries.all fun q =>
    match q with
    | some (.pending pq) => !(decide (p = pq.port) && decide (transactionId pl = pq.txid))
    | _ => true

theorem noMatchB_mem (s : DnsSocket) (p : Nat) (pl : List Nat)
    (h : noMatchB s p pl = true) :
    ∀ pq, some (QueryState.pending pq) ∈ s.queries →
      ¬(p = pq.port ∧ transactionId pl = pq.txid) := by
  intro pq hm hc
  have := List.all_eq_true.1 h _ hm
  simp only [Bool.not_eq_true', Bool.and_eq_false_iff, decide_eq_false_iff_not] at this
  rcases this with h1 | h1 <;> exact h1 (by tauto)

theorem processSlots_noMatch (pkt : List Nat) (p : Nat) :
    ∀ qs : List (Option QueryState),
      (∀ pq, some (QueryState.pending pq) ∈ qs →
        ¬(p = pq.port ∧ transactionId pkt = pq.txid)) →
      processSlots pkt p qs = (.ok (), qs) := by
  intro qs
  induction qs with
  | nil => intro _; rfl
  | cons q rest ih =>
    intro h
    have hrest := ih fun pq hm => h pq (List.mem_cons_of_mem _ hm)
    match q with
    | some (.pending pq) =>
      have hq : ¬(p = pq.port ∧ transactionId pkt = pq.txid) :=
        h pq (List.mem_cons_self _ _)
      simp [processSlots, hq, hrest]
    | some (.completed a) => simp [processSlots, hrest]
    | some .failure => simp [processSlots, hrest]
    | none => simp [processSlots, hrest]

theorem process_noMatch_val (s : DnsSocket) (p : Nat) (pl : List Nat)
    (h : noMatchB s p pl = true) :
    process s p pl =
      (if headerOk pl = true then .ok () else .error .malformed, s) := by
  unfold process
  by_cases h1 : pl.length < 12
  · rw [if_pos h1]
    have hh : headerOk pl = false := by
      simp only [headerOk, Bool.and_eq_false_iff, decide_eq_false_iff_not]
      left; left; omega
    rw [hh]
    rfl
  · rw [if_neg h1]
    by_cases h2 : opcodeOf pl ≠ 0
    · rw [if_pos h2]
      have hh : headerOk pl = false := by
        simp only [headerOk, Bool.and_eq_false_iff, decide_eq_false_iff_not]
        left; left; right; exact h2
      rw [hh]
      rfl
    · rw [if_neg h2]
      by_cases h3 : ¬responseBit pl = true
      · rw [if_pos h3]
        have hh : headerOk pl = false := by
          simp only [headerOk, Bool.and_eq_false_iff, decide_eq_false_iff_not]
          left; right; simpa using h3
        rw [hh]
        rfl
      · rw [if_neg h3]
        by_cases h4 : questionCount pl ≠ 1
        · rw [if_pos h4]
          have hh : headerOk pl = false := by
            simp only [headerOk, Bool.and_eq_false_iff, decide_eq_false_iff_not]
            right; exact h4
          rw [hh]
          rfl
        · rw [if_neg h4]
          have hh : headerOk pl = true := by
            simp only [headerOk, Bool.and_eq_true, decide_eq_true_eq]
            refine ⟨⟨⟨by omega, by simpa using h2⟩, by simpa using h3⟩, by simpa using h4⟩
          rw [hh]
          rw [processSlots_noMatch pl p s.queries (noMatchB_mem s p pl h)]
          rfl

/-- A sequence of `process` calls, threading the socket state and
collecting each call's result. -/
def processSeq (s : DnsSocket) : List (Nat × List Nat) → List (Except Error Unit) × DnsSocket
  | [] => ([], s)
  | c :: rest =>
    let r := process s c.1 c.2
    let rs := processSeq r.2 rest
    (r.1 :: rs.1, rs.2)

/-- C6: after any sequence of `process` calls whose packets' `(dst_port,
txid)` pairs match no `Pending` slot, every query slot (indeed the whole
socket) is unchanged, and each call whose packet passes the header checks
returned `Ok`. -/
theorem c6_stray_responses_ignored (s : DnsSocket) (calls : List (Nat × List Nat))
    (h : ∀ c ∈ calls, noMatchB s c.1 c.2 = true) :
    (processSeq s calls).2 = s ∧
    List.Forall₂ (fun c r => headerOk c.2 = true → r = Except.ok ())
      calls (processSeq s calls).1 := by
  induction calls with
  | nil => exact ⟨rfl, List.Forall₂.nil⟩
  | cons c rest ih =>
    have hc := h c (List.mem_cons_self _ _)
    have hval := process_noMatch_val s c.1 c.2 hc
    have hrest := ih fun c' hm => h c' (List.mem_cons_of_mem _ hm)
    constructor
    · show (processSeq (process s c.1 c.2).2 rest).2 = s
      rw [hval]
      exact hrest.1
    · show List.Forall₂ _ (c :: rest) ((process s c.1 c.2).1 :: (processSeq (process s c.1 c.2).2 rest).1)
      rw [hval]
      refine List.Forall₂.cons ?_ hrest.2
      intro hok
      simp [hok]

/-- A socket with a single pending query on `(port 4000, txid 7)`. -/
def c6sock : DnsSocket :=
  ⟨[[10, 0, 0, 1]], false,
   [some (.pending ⟨[1, 97, 0], 1, 4000, 7, none, 0, 1000, 0⟩)], none⟩

/-- A well-formed NXDomain response with txid 8 (matching nothing here). -/
def c6pkt : List Nat := [0, 8, 0x80, 0x03, 0, 1, 0, 0, 0, 0, 0, 0]

/-- A packet failing the header checks (no RESPONSE flag), with a txid
matching nothing. -/
def c6bad : List Nat := [0, 9, 0x00, 0x00, 0, 1, 0, 0, 0, 0, 0, 0]

/-- Witness for C6: one call with a wrong port, one with a wrong txid and
one with a bad header leave the one-slot socket unchanged, and the two
header-passing calls returned `Ok`. -/
theorem c6_witness :
    (processSeq c6sock [(4001, c6pkt), (4000, c6pkt), (4000, c6bad)]).2 = c6sock ∧
    List.Forall₂ (fun c r => headerOk c.2 = true → r = Except.ok ())
      [(4001, c6pkt), (4000, c6pkt), (4000, c6bad)]
      (processSeq c6sock [(4001, c6pkt), (4000, c6pkt), (4000, c6bad)]).1 :=
  c6_stray_responses_ignored c6sock [(4001, c6pkt), (4000, c6pkt), (4000, c6bad)]
    (by intro c hm; fin_cases hm <;> decide)

theorem processSlots_nx_unique (pkt : List Nat) (p : Nat) (hrc : rcodeOf pkt = 3) :
    ∀ (qs : List (Option QueryState)) (i : Nat) (pq : PendingQuery),
      qs.get? i = some (some (.pending pq)) →
      p = pq.port → transactionId pkt = pq.txid →
      (∀ j pq', qs.get? j = some (some (.pending pq')) →
        p = pq'.port → transactionId pkt = pq'.txid → j = i) →
      processSlots pkt p qs = (.ok (), qs.set i (some .failure)) := by
  intro qs
  induction qs with
  | nil => intro i pq hi _ _ _; cases i <;> simp [List.get?] at hi
  | cons q rest ih =>
    intro i pq hi hp ht huniq
    match i with
    | 0 =>
      have hq : q = some (.pending pq) := by simpa [List.get?] using hi
      subst hq
      subst hp
      have hnorest : ∀ pq', some (QueryState.pending pq') ∈ rest →
          ¬(pq.port = pq'.port ∧ transactionId pkt = pq'.txid) := by
        intro pq' hm hc
        rw [List.mem_iff_getElem?] at hm
        obtain ⟨n, hn⟩ := hm
        have : n + 1 = 0 := huniq (n + 1) pq'
          (by rw [List.get?_eq_getElem?]; simpa [List.getElem?_cons_succ] using hn)
          hc.1 hc.2
        exact Nat.noConfusion this
      simp [processSlots, ht, hrc, processSlots_noMatch pkt pq.port rest hnorest,
        List.set_cons_zero]
    | j + 1 =>
      have hj : rest.get? j = some (some (.pending pq)) := by simpa [List.get?] using hi
      have huniq' : ∀ k pq', rest.get? k = some (some (.pending pq')) →
          p = pq'.port → transactionId pkt = pq'.txid → k = j := by
        intro k pq' hk hp' ht'
        have : k + 1 = j + 1 := huniq (k + 1) pq' (by simpa [List.get?] using hk) hp' ht'
        omega
      have hres := ih j pq hj hp ht huniq'
      match q with
      | some (.pending pq'') =>
        have hq : ¬(p = pq''.port ∧ transactionId pkt = pq''.txid) := by
          intro hc
          exact Nat.noConfusion (huniq 0 pq'' (by simp [List.get?]) hc.1 hc.2)
        simp [processSlots, hq, hres, List.set_cons_succ]
      | some (.completed a) => simp [processSlots, hres, List.set_cons_succ]
      | some .failure => simp [processSlots, hres, List.set_cons_succ]
      | none => simp [processSlots, hres, List.set_cons_succ]

/-- C4: a well-formed response whose `(dst_port, txid)` matches exactly
one `Pending` slot and whose rcode is NXDomain moves that slot to
`Failure`, changes no other slot, and `process` returns `Ok`. -/
theorem c4_nxdomain_failure (s : DnsSocket) (p : Nat) (pl : List Nat)
    (i : Nat) (pq : PendingQuery)
    (hhdr : headerOk pl = true) (hrc : rcodeOf pl = 3)
    (hi : s.queries.get? i = some (some (.pending pq)))
    (hp : p = pq.port) (ht : transactionId pl = pq.txid)
    (huniq : ∀ j pq', s.queries.get? j = some (some (.pending pq')) →
      p = pq'.port → transactionId pl = pq'.txid → j = i) :
    process s p pl = (.ok (), { s with queries := s.queries.set i (some .failure) }) := by
  have ⟨⟨⟨h12, hop⟩, hresp⟩, hqc⟩ :
      ((12 ≤ pl.length ∧ opcodeOf pl = 0) ∧ responseBit pl = true) ∧ questionCount pl = 1 := by
    simpa [headerOk, Bool.and_eq_true, decide_eq_true_eq] using hhdr
  unfold process
  rw [if_neg (by omega), if_neg (by simp [hop]), if_neg (by simp [hresp]),
    if_neg (by simp [hqc])]
  rw [processSlots_nx_unique pl p hrc s.queries i pq hi hp ht huniq]

/-- The NXDomain response matching `c6sock`'s pending slot. -/
def c4pkt : List Nat := [0, 7, 0x80, 0x03, 0, 1, 0, 0, 0, 0, 0, 0]

/-- Witness for C4: the matching NXDomain response moves the single
pending slot to `Failure` and `process` returns `Ok`. -/
theorem c4_witness :
    process c6sock 4000 c4pkt =
      (.ok (), { c6sock with queries := c6sock.queries.set 0 (some .failure) }) :=
  c4_nxdomain_failure c6sock 4000 c4pkt 0
    ⟨[1, 97, 0], 1, 4000, 7, none, 0, 1000, 0⟩
    (by decide) (by decide) rfl rfl rfl
    (by
      intro j pq' hj _ _
      match j with
      | 0 => rfl
      | k + 1 => simp [c6sock, List.get?] at hj)

theorem stepName_err (pkt : List Nat) :
    ∀ (f : Nat) (cur : List Nat) (e : Error),
      stepName pkt f cur = .error e → e = .truncated := by
  intro f
  induction f with
  | zero => intro cur e h; cases h; rfl
  | succ m ih =>
    intro cur e h
    match cur with
    | [] => cases h; rfl
    | x :: rest =>
      rw [stepName.eq_def] at h
      simp only [] at h
      by_cases hx : x = 0
      · rw [if_pos hx] at h; cases h
      · rw [if_neg hx] at h
        by_cases hl : x < 0x40
        · rw [if_pos hl] at h
          by_cases hr : x ≤ rest.length
          · rw [if_pos hr] at h; cases h
          · rw [if_neg hr] at h; cases h; rfl
        · rw [if_neg hl] at h
          by_cases hp : 0xC0 ≤ x
          · rw [if_pos hp] at h
            match rest with
            | [] => cases h; rfl
            | y :: rest2 => exact ih _ e h
          · rw [if_neg hp] at h; cases h; rfl

theorem eqNamesAux_err (pkt : List Nat) :
    ∀ (f : Nat) (a b : List Nat) (e : Error),
      eqNamesAux pkt f a b = .error e → e = .truncated := by
  intro f
  induction f with
  | zero => intro a b e h; cases h; rfl
  | succ m ih =>
    intro a b e h
    rw [eqNamesAux] at h
    rcases ha : stepName pkt (jumpFuel pkt) a with ea | oa
    · rw [ha] at h; cases h; exact stepName_err pkt _ a _ ha
    · rw [ha] at h
      rcases hb : stepName pkt (jumpFuel pkt) b with eb | ob
      · rw [hb] at h; cases h; exact stepName_err pkt _ b _ hb
      · rw [hb] at h
        match oa, ob with
        | none, none => cases h
        | none, some lb => cases h
        | some la, none => cases h
        | some (la, ra), some (lb, rb) =>
          simp only at h
          by_cases hll : la = lb
          · rw [if_pos hll] at h; exact ih _ _ _ h
          · rw [if_neg hll] at h; cases h

theorem eqNames_err (pkt a b : List Nat) (e : Error)
    (h : eqNames pkt a b = .error e) : e = .truncated :=
  eqNamesAux_err pkt 256 a b e h

theorem skipNameAux_err : ∀ (f : Nat) (bs : List Nat) (e : Error),
    skipNameAux f bs = .error e → e = .truncated := by
  intro f
  induction f with
  | zero =>
    intro bs e h
    match bs with
    | [] => cases h; rfl
    | x :: rest => cases h; rfl
  | succ m ih =>
    intro bs e h
    match bs with
    | [] => cases h; rfl
    | x :: rest =>
      rw [skipNameAux.eq_def] at h
      simp only [] at h
      by_cases hx : x = 0
      · rw [if_pos hx] at h; cases h
      · rw [if_neg hx] at h
        by_cases hl : x < 0x40
        · rw [if_pos hl] at h
          by_cases hr : x ≤ rest.length
          · rw [if_pos hr] at h
            rcases hs : skipNameAux m (rest.drop x) with es | n
            · rw [hs] at h
              simp only [Except.map] at h
              cases h
              exact ih _ _ hs
            · rw [hs] at h
              simp only [Except.map] at h
              cases h
          · rw [if_neg hr] at h; cases h; rfl
        · rw [if_neg hl] at h
          by_cases hp : 0xC0 ≤ x
          · rw [if_pos hp] at h
            match rest with
            | [] => cases h; rfl
            | y :: rest2 => cases h
          · rw [if_neg hp] at h; cases h; rfl

theorem parseRecord_err (bs : List Nat) (e : Error)
    (h : parseRecord bs = .error e) : e = .truncated := by
  unfold parseRecord at h
  split at h
  · rename_i e1 hs
    cases h
    exact skipNameAux_err _ _ _ hs
  · split at h
    · simp only [] at h
      split_ifs at h <;> cases h <;> rfl
    · cases h
      rfl

theorem copyNameAux_err (pkt : List Nat) (cap : Nat) :
    ∀ (f : Nat) (cur dest : List Nat) (e : Error) (d : List Nat),
      copyNameAux pkt cap f cur dest = (.error e, d) → e = .truncated := by
  intro f
  induction f with
  | zero => intro cur dest e d h; cases h; rfl
  | succ m ih =>
    intro cur dest e d h
    rw [copyNameAux] at h
    rcases hs : stepName pkt (jumpFuel pkt) cur with es | o
    · rw [hs] at h; cases h; exact stepName_err pkt _ cur _ hs
    · rw [hs] at h
      match o with
      | none =>
        simp only at h
        by_cases hc : dest.length + 1 ≤ cap
        · rw [if_pos hc] at h; cases h
        · rw [if_neg hc] at h; cases h; rfl
      | some (l, rest) =>
        simp only at h
        by_cases hc : dest.length + 1 ≤ cap
        · rw [if_pos hc] at h
          by_cases hc2 : dest.length + 1 + l.length ≤ cap
          · rw [if_pos hc2] at h; exact ih _ _ _ _ h
          · rw [if_neg hc2] at h; cases h; rfl
        · rw [if_neg hc] at h; cases h; rfl

theorem processRecords_err (pkt : List Nat) :
    ∀ (n : Nat) (pl : List Nat) (addrs : List IpAddress) (pq : PendingQuery) (e : Error),
      (processRecords pkt n pl addrs pq).1 = .error e → e = .truncated := by
  intro n
  induction n with
  | zero => intro pl addrs pq e h; cases h
  | succ m ih =>
    intro pl addrs pq e h
    rw [processRecords] at h
    rcases hr : parseRecord pl with er | ⟨pl2, r⟩
    · rw [hr] at h
      simp only [] at h
      cases h
      exact parseRecord_err pl _ hr
    · rw [hr] at h
      simp only [] at h
      rcases he : eqNames pkt r.name pq.name with ee | b
      · rw [he] at h
        simp only [] at h
        cases h
        exact eqNames_err pkt _ _ _ he
      · rw [he] at h
        match b with
        | false =>
          simp only [] at h
          exact ih _ _ _ _ h
        | true =>
          simp only [] at h
          match hd : r.data with
          | .a addr => rw [hd] at h; simp only [] at h; exact ih _ _ _ _ h
          | .aaaa addr => rw [hd] at h; simp only [] at h; exact ih _ _ _ _ h
          | .other t d => rw [hd] at h; simp only [] at h; exact ih _ _ _ _ h
          | .cname nm =>
            rw [hd] at h
            simp only [] at h
            rcases hc : copyName pkt MAX_NAME_LEN nm with ⟨cr, cd⟩
            rw [hc] at h
            match cr with
            | .error ec =>
              simp only [] at h
              cases h
              exact copyNameAux_err pkt MAX_NAME_LEN 256 nm [] _ _ hc
            | .ok () =>
              simp only [] at h
              exact ih _ _ _ _ h

theorem processSlots_nx_ok (pkt : List Nat) (p : Nat) (hrc : rcodeOf pkt = 3) :
    ∀ qs : List (Option QueryState), (processSlots pkt p qs).1 = .ok () := by
  intro qs
  induction qs with
  | nil => rfl
  | cons q rest ih =>
    rcases hrec : processSlots pkt p rest with ⟨r1, rest1⟩
    rw [hrec] at ih
    match q with
    | none =>
      simp only [processSlots, hrec]
      exact ih
    | some (.completed a) =>
      simp only [processSlots, hrec]
      exact ih
    | some .failure =>
      simp only [processSlots, hrec]
      exact ih
    | some (.pending pq) =>
      by_cases hm : p = pq.port ∧ transactionId pkt = pq.txid
      · simp only [processSlots, if_pos hm, if_pos hrc, hrec]
        exact ih
      · simp only [processSlots, if_neg hm, hrec]
        exact ih

theorem processSlots_malformed_unchanged (pkt : List Nat) (p : Nat) :
    ∀ (qs : List (Option QueryState)) (r : Except Error Unit) (qs' : List (Option QueryState)),
      processSlots pkt p qs = (r, qs') → r = .error .malformed → qs' = qs := by
  intro qs
  induction qs with
  | nil => intro r qs' heq _; cases heq; rfl
  | cons q rest ih =>
    intro r qs' heq hr
    rcases hrec : processSlots pkt p rest with ⟨r1, rest1⟩
    match q with
    | none =>
      simp only [processSlots, hrec] at heq
      have h1 : r1 = r := congrArg Prod.fst heq
      have h2 : (none : Option QueryState) :: rest1 = qs' := congrArg Prod.snd heq
      rw [← h2, ih r1 rest1 hrec (h1.trans hr)]
    | some (.completed a) =>
      simp only [processSlots, hrec] at heq
      have h1 : r1 = r := congrArg Prod.fst heq
      have h2 : some (QueryState.completed a) :: rest1 = qs' := congrArg Prod.snd heq
      rw [← h2, ih r1 rest1 hrec (h1.trans hr)]
    | some .failure =>
      simp only [processSlots, hrec] at heq
      have h1 : r1 = r := congrArg Prod.fst heq
      have h2 : some QueryState.failure :: rest1 = qs' := congrArg Prod.snd heq
      rw [← h2, ih r1 rest1 hrec (h1.trans hr)]
    | some (.pending pq) =>
      by_cases hm : p = pq.port ∧ transactionId pkt = pq.txid
      · by_cases hrc3 : rcodeOf pkt = 3
        · have hok := processSlots_nx_ok pkt p hrc3 rest
          rw [hrec] at hok
          simp only [processSlots, if_pos hm, if_pos hrc3, hrec] at heq
          have h1 : r1 = r := congrArg Prod.fst heq
          rw [h1, hr] at hok
          exact absurd hok (by simp)
        · rcases hpq : parseQuestion (payloadOf pkt) with epq | ⟨pl1, question⟩
          · simp only [processSlots, if_pos hm, if_neg hrc3, hpq] at heq
            have h2 : some (QueryState.pending pq) :: rest = qs' := congrArg Prod.snd heq
            rw [← h2]
          · by_cases htq : question.type_ ≠ pq.type_
            · simp only [processSlots, if_pos hm, if_neg hrc3, hpq, if_pos htq] at heq
              have h2 : some (QueryState.pending pq) :: rest = qs' := congrArg Prod.snd heq
              rw [← h2]
            · rcases hen : eqNames pkt question.name pq.name with een | b
              · simp only [processSlots, if_pos hm, if_neg hrc3, hpq, if_neg htq, hen] at heq
                have h2 : some (QueryState.pending pq) :: rest = qs' := congrArg Prod.snd heq
                rw [← h2]
              · match b with
                | false =>
                  simp only [processSlots, if_pos hm, if_neg hrc3, hpq, if_neg htq, hen] at heq
                  have h2 : some (QueryState.pending pq) :: rest = qs' := congrArg Prod.snd heq
                  rw [← h2]
                | true =>
                  rcases hpr : processRecords pkt (answerCount pkt) pl1 [] pq with ⟨res, addrs, pq'⟩
                  match res with
                  | .error e0 =>
                    have he0 : e0 = .truncated :=
                      processRecords_err pkt _ _ _ _ _ (by rw [hpr])
                    simp only [processSlots, if_pos hm, if_neg hrc3, hpq, if_neg htq, hen,
                      hpr] at heq
                    have h1 : Except.error e0 = r := congrArg Prod.fst heq
                    rw [← h1, he0] at hr
                    exact absurd hr (by simp)
                  | .ok () =>
                    simp only [processSlots, if_pos hm, if_neg hrc3, hpq, if_neg htq, hen,
                      hpr] at heq
                    have h1 : Except.ok () = r := congrArg Prod.fst heq
                    rw [← h1] at hr
                    exact absurd hr (by simp)
      · simp only [processSlots, if_neg hm, hrec] at heq
        have h1 : r1 = r := congrArg Prod.fst heq
        have h2 : some (QueryState.pending pq) :: rest1 = qs' := congrArg Prod.snd heq
        rw [← h2, ih r1 rest1 hrec (h1.trans hr)]

/-- C1: every `process` call returning the `Malformed` error leaves every
query slot — including a matched `Pending` slot and its stored name —
exactly as it was: the whole socket state is unchanged. -/
theorem c1_malformed_no_mutation (s : DnsSocket) (p : Nat) (pl : List Nat)
    (h : (process s p pl).1 = .error .malformed) :
    (process s p pl).2 = s := by
  unfold process at h ⊢
  by_cases h1 : pl.length < 12
  · rw [if_pos h1]
  · rw [if_neg h1] at h ⊢
    by_cases h2 : opcodeOf pl ≠ 0
    · rw [if_pos h2]
    · rw [if_neg h2] at h ⊢
      by_cases h3 : ¬responseBit pl = true
      · rw [if_pos h3]
      · rw [if_neg h3] at h ⊢
        by_cases h4 : questionCount pl ≠ 1
        · rw [if_pos h4]
        · rw [if_neg h4] at h ⊢
          rcases hps : processSlots pl p s.queries with ⟨r0, qs0⟩
          rw [hps] at h
          have hq : qs0 = s.queries :=
            processSlots_malformed_unchanged pl p s.queries r0 qs0 hps h
          subst hq
          rfl

/-- A header-only packet with opcode 3 (not Query): `process` rejects it
as `Malformed`. -/
def c1pkt : List Nat := [0, 7, 0x98, 0x00, 0, 1, 0, 0, 0, 0, 0, 0]

/-- Witness for C1: a packet with a non-Query opcode returns `Malformed`
and leaves the socket untouched. -/
theorem c1_witness :
    (process c6sock 4000 c1pkt).1 = .error .malformed
    ∧ (process c6sock 4000 c1pkt).2 = c6sock :=
  ⟨rfl, c1_malformed_no_mutation c6sock 4000 c1pkt rfl⟩

/-- How one slot can evolve across a `process` call: unchanged, failed,
completed, or still pending with only the stored name rewritten (by CNAME
chasing). -/
def slotEvolve (a b : Option QueryState) : Prop :=
  b = a ∨ b = some .failure ∨ (∃ addrs, b = some (.completed addrs)) ∨
    (∃ pq nm, a = some (.pending pq) ∧ b = some (.pending { pq with name := nm }))

theorem forall₂_slotEvolve_refl (l : List (Option QueryState)) :
    List.Forall₂ slotEvolve l l :=
  List.forall₂_same.2 fun _ _ => Or.inl rfl

theorem forall₂_mem {α : Type} {R : α → α → Prop} :
    ∀ {l1 l2 : List α}, List.Forall₂ R l1 l2 → ∀ b, b ∈ l2 → ∃ a, a ∈ l1 ∧ R a b := by
  intro l1 l2 h
  induction h with
  | nil => intro b hb; exact absurd hb (by simp)
  | @cons a0 b0 l1' l2' hR hrest ih =>
    intro b hb
    rcases List.mem_cons.1 hb with hb0 | hbr
    · exact ⟨a0, List.mem_cons_self _ _, hb0 ▸ hR⟩
    · obtain ⟨a, ha, hab⟩ := ih b hbr
      exact ⟨a, List.mem_cons_of_mem _ ha, hab⟩

theorem processRecords_name_only (pkt : List Nat) :
    ∀ (n : Nat) (pl : List Nat) (addrs : List IpAddress) (pq : PendingQuery)
      (res : Except Error Unit) (addrs2 : List IpAddress) (pq2 : PendingQuery),
      processRecords pkt n pl addrs pq = (res, addrs2, pq2) →
      ∃ nm, pq2 = { pq with name := nm } := by
  intro n
  induction n with
  | zero =>
    intro pl addrs pq res addrs2 pq2 h
    cases h
    exact ⟨pq.name, rfl⟩
  | succ m ih =>
    intro pl addrs pq res addrs2 pq2 h
    rw [processRecords] at h
    rcases hr : parseRecord pl with er | ⟨pl2, r⟩
    · rw [hr] at h
      simp only [] at h
      cases h
      exact ⟨pq.name, rfl⟩
    · rw [hr] at h
      simp only [] at h
      rcases he : eqNames pkt r.name pq.name with ee | b
      · rw [he] at h
        simp only [] at h
        cases h
        exact ⟨pq.name, rfl⟩
      · rw [he] at h
        match b with
        | false =>
          simp only [] at h
          exact ih _ _ _ _ _ _ h
        | true =>
          simp only [] at h
          match hd : r.data with
          | .a addr => rw [hd] at h; simp only [] at h; exact ih _ _ _ _ _ _ h
          | .aaaa addr => rw [hd] at h; simp only [] at h; exact ih _ _ _ _ _ _ h
          | .other t d => rw [hd] at h; simp only [] at h; exact ih _ _ _ _ _ _ h
          | .cname nm0 =>
            rw [hd] at h
            simp only [] at h
            rcases hc : copyName pkt MAX_NAME_LEN nm0 with ⟨cr, cd⟩
            rw [hc] at h
            match cr with
            | .error ec =>
              simp only [] at h
              cases h
              exact ⟨cd, rfl⟩
            | .ok () =>
              simp only [] at h
              obtain ⟨nm1, hnm⟩ := ih _ _ _ _ _ _ h
              refine ⟨nm1, ?_⟩
              rw [hnm]

theorem processSlots_evolve (pkt : List Nat) (p : Nat) :
    ∀ qs, List.Forall₂ slotEvolve qs (processSlots pkt p qs).2 := by
  intro qs
  induction qs with
  | nil => exact List.Forall₂.nil
  | cons q rest ih =>
    rcases hrec : processSlots pkt p rest with ⟨r1, rest1⟩
    rw [hrec] at ih
    match q with
    | none =>
      have hv : processSlots pkt p (none :: rest) = (r1, none :: rest1) := by
        simp only [processSlots, hrec]
      rw [hv]
      exact List.Forall₂.cons (Or.inl rfl) ih
    | some (.completed a) =>
      have hv : processSlots pkt p (some (.completed a) :: rest) =
          (r1, some (.completed a) :: rest1) := by
        simp only [processSlots, hrec]
      rw [hv]
      exact List.Forall₂.cons (Or.inl rfl) ih
    | some .failure =>
      have hv : processSlots pkt p (some .failure :: rest) =
          (r1, some .failure :: rest1) := by
        simp only [processSlots, hrec]
      rw [hv]
      exact List.Forall₂.cons (Or.inl rfl) ih
    | some (.pending pq) =>
      by_cases hm : p = pq.port ∧ transactionId pkt = pq.txid
      · by_cases hrc3 : rcodeOf pkt = 3
        · have hv : processSlots pkt p (some (.pending pq) :: rest) =
              (r1, some .failure :: rest1) := by
            simp only [processSlots, if_pos hm, if_pos hrc3, hrec]
          rw [hv]
          exact List.Forall₂.cons (Or.inr (Or.inl rfl)) ih
        · rcases hpq : parseQuestion (payloadOf pkt) with epq | ⟨pl1, question⟩
          · have hv : processSlots pkt p (some (.pending pq) :: rest) =
                (.error epq, some (.pending pq) :: rest) := by
              simp only [processSlots, if_pos hm, if_neg hrc3, hpq]
            rw [hv]
            exact forall₂_slotEvolve_refl _
          · by_cases htq : question.type_ ≠ pq.type_
            · have hv : processSlots pkt p (some (.pending pq) :: rest) =
                  (.error .malformed, some (.pending pq) :: rest) := by
                simp only [processSlots, if_pos hm, if_neg hrc3, hpq, if_pos htq]
              rw [hv]
              exact forall₂_slotEvolve_refl _
            · rcases hen : eqNames pkt question.name pq.name with een | b
              · have hv : processSlots pkt p (some (.pending pq) :: rest) =
                    (.error een, some (.pending pq) :: rest) := by
                  simp only [processSlots, if_pos hm, if_neg hrc3, hpq, if_neg htq, hen]
                rw [hv]
                exact forall₂_slotEvolve_refl _
              · match b with
                | false =>
                  have hv : processSlots pkt p (some (.pending pq) :: rest) =
                      (.error .malformed, some (.pending pq) :: rest) := by
                    simp only [processSlots, if_pos hm, if_neg hrc3, hpq, if_neg htq, hen]
                  rw [hv]
                  exact forall₂_slotEvolve_refl _
                | true =>
                  rcases hpr : processRecords pkt (answerCount pkt) pl1 [] pq
                    with ⟨res, addrs, pq'⟩
                  obtain ⟨nm, hnm⟩ :=
                    processRecords_name_only pkt (answerCount pkt) pl1 [] pq res addrs pq' hpr
                  match res with
                  | .error e0 =>
                    have hv : processSlots pkt p (some (.pending pq) :: rest) =
                        (.error e0, some (.pending pq') :: rest) := by
                      simp only [processSlots, if_pos hm, if_neg hrc3, hpq, if_neg htq,
                        hen, hpr]
                    rw [hv]
                    exact List.Forall₂.cons
                      (Or.inr (Or.inr (Or.inr ⟨pq, nm, rfl, by rw [hnm]⟩)))
                      (forall₂_slotEvolve_refl rest)
                  | .ok () =>
                    by_cases haddr : addrs = ([] : List IpAddress)
                    · have hv : processSlots pkt p (some (.pending pq) :: rest) =
                          (.ok (), some .failure :: rest) := by
                        simp only [processSlots, if_pos hm, if_neg hrc3, hpq, if_neg htq,
                          hen, hpr, if_pos haddr]
                      rw [hv]
                      exact List.Forall₂.cons (Or.inr (Or.inl rfl))
                        (forall₂_slotEvolve_refl rest)
                    · have hv : processSlots pkt p (some (.pending pq) :: rest) =
                          (.ok (), some (.completed addrs) :: rest) := by
                        simp only [processSlots, if_pos hm, if_neg hrc3, hpq, if_neg htq,
                          hen, hpr, if_neg haddr]
                      rw [hv]
                      exact List.Forall₂.cons (Or.inr (Or.inr (Or.inl ⟨addrs, rfl⟩)))
                        (forall₂_slotEvolve_refl rest)
      · have hv : processSlots pkt p (some (.pending pq) :: rest) =
            (r1, some (.pending pq) :: rest1) := by
          simp only [processSlots, if_neg hm, hrec]
        rw [hv]
        exact List.Forall₂.cons (Or.inl rfl) ih

/-- Every `process` call relates the slots before and after by
`slotEvolve`. -/
theorem process_evolve (s : DnsSocket) (p : Nat) (pl : List Nat) :
    List.Forall₂ slotEvolve s.queries (process s p pl).2.queries := by
  unfold process
  by_cases h1 : pl.length < 12
  · rw [if_pos h1]
    exact forall₂_slotEvolve_refl _
  · rw [if_neg h1]
    by_cases h2 : opcodeOf pl ≠ 0
    · rw [if_pos h2]
      exact forall₂_slotEvolve_refl _
    · rw [if_neg h2]
      by_cases h3 : ¬responseBit pl = true
      · rw [if_pos h3]
        exact forall₂_slotEvolve_refl _
      · rw [if_neg h3]
        by_cases h4 : questionCount pl ≠ 1
        · rw [if_pos h4]
          exact forall₂_slotEvolve_refl _
        · rw [if_neg h4]
          have hev := processSlots_evolve pl p s.queries
          rcases hps : processSlots pl p s.queries with ⟨r0, qs0⟩
          rw [hps] at hev
          exact hev

theorem findFree_queries (s : DnsSocket) (h : Nat) (s1 : DnsSocket)
    (heq : findFreeQuery s = .ok (h, s1)) :
    s1.queries = s.queries ∨ s1.queries = s.queries ++ [none] := by
  unfold findFreeQuery at heq
  rcases hfn : firstNone s.queries with _ | i
  · rw [hfn] at heq
    by_cases how : s.queriesOwned = true
    · rw [if_pos how] at heq
      cases heq
      right
      rfl
    · rw [if_neg how] at heq
      cases heq
  · rw [hfn] at heq
    cases heq
    left
    rfl

theorem startQueryRaw_slot_mem (s : DnsSocket) (cx : Context) (raw : List Nat)
    (slot : Option QueryState) (hm : slot ∈ (startQueryRaw s cx raw).2.queries) :
    slot ∈ s.queries ∨ slot = some (.pending (freshPending cx raw)) ∨ slot = none := by
  unfold startQueryRaw at hm
  rcases hfq : findFreeQuery s with e | ⟨h, s1⟩
  · rw [hfq] at hm
    exact Or.inl hm
  · rw [hfq] at hm
    simp only [] at hm
    have hqmem : slot ∈ s1.queries → slot ∈ s.queries ∨ slot = none := by
      intro hm1
      rcases findFree_queries s h s1 hfq with hq | hq
      · rw [hq] at hm1
        exact Or.inl hm1
      · rw [hq] at hm1
        rcases List.mem_append.1 hm1 with hm2 | hm2
        · exact Or.inl hm2
        · right
          simpa using hm2
    by_cases hlen : raw.length ≤ MAX_NAME_LEN
    · rw [if_pos hlen] at hm
      rcases List.mem_or_eq_of_mem_set hm with hm1 | hm1
      · rcases hqmem hm1 with h2 | h2
        · exact Or.inl h2
        · exact Or.inr (Or.inr h2)
      · exact Or.inr (Or.inl hm1)
    · rw [if_neg hlen] at hm
      rcases hqmem hm with h2 | h2
      · exact Or.inl h2
      · exact Or.inr (Or.inr h2)

theorem getQueryResult_slot_mem (s : DnsSocket) (h0 : Nat) (slot : Option QueryState)
    (hm : slot ∈ (getQueryResult s h0).2.queries) :
    slot ∈ s.queries ∨ slot = none := by
  unfold getQueryResult at hm
  rcases hq : s.queries.get? h0 with _ | q
  · rw [hq] at hm
    exact Or.inl hm
  · rw [hq] at hm
    match q with
    | none => exact Or.inl hm
    | some st =>
      match st with
      | .pending _ => exact Or.inl hm
      | .completed a =>
        simp only [] at hm
        exact List.mem_or_eq_of_mem_set hm
      | .failure =>
        simp only [] at hm
        exact List.mem_or_eq_of_mem_set hm

theorem cancelQuery_slot_mem (s : DnsSocket) (h0 : Nat) (slot : Option QueryState)
    (hm : slot ∈ (cancelQuery s h0).2.queries) :
    slot ∈ s.queries ∨ slot = none := by
  unfold cancelQuery at hm
  rcases hq : s.queries.get? h0 with _ | q
  · rw [hq] at hm
    exact Or.inl hm
  · rw [hq] at hm
    match q with
    | none => exact Or.inl hm
    | some st =>
      simp only [] at hm
      exact List.mem_or_eq_of_mem_set hm

theorem armFire_fields (now : Nat) (pq : PendingQuery) :
    ((armFire now pq).delay = pq.delay ∨ (armFire now pq).delay = RETRANSMIT_DELAY) ∧
    (armFire now pq).port = pq.port ∧ (armFire now pq).txid = pq.txid ∧
    (armFire now pq).name = pq.name ∧
    pq.server_idx ≤ (armFire now pq).server_idx := by
  unfold armFire fireUpdate
  by_cases hf : pq.timeout_at.getD (now + RETRANSMIT_TIMEOUT) < now
  · simp [hf]
  · simp [hf]

theorem visitPending_cases (servers : List IpAddress) (now : Nat) (pq : PendingQuery) :
    visitPending servers now pq = .toFailure ∨
    ((armFire now pq).server_idx < servers.length ∧
      (visitPending servers now pq = .waiting (armFire now pq) ∨
       visitPending servers now pq = .ready (armFire now pq))) := by
  unfold visitPending
  by_cases h1 : servers.length ≤ (armFire now pq).server_idx
  · exact Or.inl (by rw [if_pos h1])
  · by_cases h2 : isUnspecified (servers.getD (armFire now pq).server_idx []) = true
    · exact Or.inl (by rw [if_neg h1, if_pos h2])
    · by_cases h3 : now < (armFire now pq).retransmit_at
      · exact Or.inr ⟨by omega, Or.inl (by rw [if_neg h1, if_neg h2, if_pos h3])⟩
      · exact Or.inr ⟨by omega, Or.inr (by rw [if_neg h1, if_neg h2, if_neg h3])⟩

/-- The delay bound of the spec (`delay ∈ [1s, 10s]`) over a slot list. -/
def delayInvL (qs : List (Option QueryState)) : Prop :=
  ∀ pq, some (QueryState.pending pq) ∈ qs →
    RETRANSMIT_DELAY ≤ pq.delay ∧ pq.delay ≤ MAX_RETRANSMIT_DELAY

theorem delayInvL_cons {q : Option QueryState} {qs : List (Option QueryState)}
    (h : delayInvL (q :: qs)) : delayInvL qs :=
  fun pq hm => h pq (List.mem_cons_of_mem _ hm)

theorem dispatchSlots_delayInv (servers : List IpAddress) (hop : Nat) (cx : Context)
    (emit : EmitData → Except Error Unit) :
    ∀ (qs : List (Option QueryState)) (r : Except Error Unit) (qs' : List (Option QueryState)),
      dispatchSlots servers hop cx emit qs = some (r, qs') →
      delayInvL qs → delayInvL qs' := by
  intro qs
  induction qs with
  | nil =>
    intro r qs' heq _
    cases heq
    intro pq hm
    exact absurd hm (by simp)
  | cons q rest ih =>
    intro r qs' heq hinv
    have hrestinv := delayInvL_cons hinv
    match q with
    | none =>
      rcases hrec : dispatchSlots servers hop cx emit rest with _ | ⟨r1, rest1⟩
      · rw [dispatchSlots, hrec] at heq
        cases heq
      · rw [dispatchSlots, hrec] at heq
        simp only [Option.map] at heq
        cases heq
        intro pq hm
        rcases List.mem_cons.1 hm with hm0 | hmr
        · exact absurd hm0 (by simp)
        · exact ih _ _ hrec hrestinv pq hmr
    | some (.completed a) =>
      rcases hrec : dispatchSlots servers hop cx emit rest with _ | ⟨r1, rest1⟩
      · rw [dispatchSlots, hrec] at heq
        cases heq
      · rw [dispatchSlots, hrec] at heq
        simp only [Option.map] at heq
        cases heq
        intro pq hm
        rcases List.mem_cons.1 hm with hm0 | hmr
        · exact absurd hm0 (by simp)
        · exact ih _ _ hrec hrestinv pq hmr
    | some .failure =>
      rcases hrec : dispatchSlots servers hop cx emit rest with _ | ⟨r1, rest1⟩
      · rw [dispatchSlots, hrec] at heq
        cases heq
      · rw [dispatchSlots, hrec] at heq
        simp only [Option.map] at heq
        cases heq
        intro pq hm
        rcases List.mem_cons.1 hm with hm0 | hmr
        · exact absurd hm0 (by simp)
        · exact ih _ _ hrec hrestinv pq hmr
    | some (.pending pq0) =>
      have hd0 := hinv pq0 (List.mem_cons_self _ _)
      have hdelay2 : RETRANSMIT_DELAY ≤ (armFire cx.now pq0).delay ∧
          (armFire cx.now pq0).delay ≤ MAX_RETRANSMIT_DELAY := by
        rcases (armFire_fields cx.now pq0).1 with hd | hd
        · rw [hd]; exact hd0
        · rw [hd]; exact ⟨le_rfl, by decide⟩
      rcases visitPending_cases servers cx.now pq0 with hv | ⟨hlt, hv | hv⟩
      · rcases hrec : dispatchSlots servers hop cx emit rest with _ | ⟨r1, rest1⟩
        · rw [dispatchSlots, hv, hrec] at heq
          cases heq
        · rw [dispatchSlots, hv, hrec] at heq
          simp only [Option.map] at heq
          cases heq
          intro pq hm
          rcases List.mem_cons.1 hm with hm0 | hmr
          · exact absurd hm0 (by simp)
          · exact ih _ _ hrec hrestinv pq hmr
      · rcases hrec : dispatchSlots servers hop cx emit rest with _ | ⟨r1, rest1⟩
        · rw [dispatchSlots, hv, hrec] at heq
          cases heq
        · rw [dispatchSlots, hv, hrec] at heq
          simp only [Option.map] at heq
          cases heq
          intro pq hm
          rcases List.mem_cons.1 hm with hm0 | hmr
          · have hpq : pq = armFire cx.now pq0 := by simpa using hm0
            rw [hpq]
            exact hdelay2
          · exact ih _ _ hrec hrestinv pq hmr
      · rw [dispatchSlots, hv] at heq
        simp only [] at heq
        rcases hsrc : cx.sourceAddr (servers.getD (armFire cx.now pq0).server_idx [])
          with _ | src
        · rw [hsrc] at heq
          cases heq
        · rw [hsrc] at heq
          simp only [] at heq
          rcases hem : emit ⟨src, servers.getD (armFire cx.now pq0).server_idx [], hop,
              (armFire cx.now pq0).port, (armFire cx.now pq0).txid,
              (armFire cx.now pq0).name⟩ with ee | u
          · rw [hem] at heq
            simp only [] at heq
            cases heq
            intro pq hm
            rcases List.mem_cons.1 hm with hm0 | hmr
            · have hpq : pq = armFire cx.now pq0 := by simpa using hm0
              rw [hpq]
              exact hdelay2
            · exact hrestinv pq hmr
          · rw [hem] at heq
            simp only [] at heq
            cases heq
            intro pq hm
            rcases List.mem_cons.1 hm with hm0 | hmr
            · have hpq : pq = advanceBackoff cx.now (armFire cx.now pq0) := by
                simpa using hm0
              rw [hpq]
              unfold advanceBackoff
              simp only []
              constructor
              · have h2 : RETRANSMIT_DELAY ≤ (armFire cx.now pq0).delay := hdelay2.1
                have : RETRANSMIT_DELAY ≤ MAX_RETRANSMIT_DELAY := by decide
                simp only [RETRANSMIT_DELAY, MAX_RETRANSMIT_DELAY] at *
                omega
              · exact min_le_left _ _
            · exact hrestinv pq hmr

/-- C5: in every state reachable by any sequence of public operations,
every `Pending` slot's delay lies in `[RETRANSMIT_DELAY,
MAX_RETRANSMIT_DELAY]` = [1s, 10s]: it starts at 1 s, is reset to 1 s when
the per-resolver timeout fires, and moves to `min(2*delay, 10s)` after a
successful emission. -/
theorem c5_delay_in_range (s : DnsSocket) (hr : Reachable s) :
    ∀ pq, some (QueryState.pending pq) ∈ s.queries →
      RETRANSMIT_DELAY ≤ pq.delay ∧ pq.delay ≤ MAX_RETRANSMIT_DELAY := by
  induction hr with
  | new servers owned n hn =>
    intro pq hm
    exact absurd (List.eq_of_mem_replicate hm) (by simp)
  | update s l _ hlen ih => exact ih
  | hop s hl _ hne ih => exact ih
  | startRaw s cx raw _ ih =>
    intro pq hm
    rcases startQueryRaw_slot_mem s cx raw _ hm with h1 | h1 | h1
    · exact ih pq h1
    · have hpq : pq = freshPending cx raw := by simpa using h1
      rw [hpq]
      refine ⟨le_rfl, ?_⟩
      show RETRANSMIT_DELAY ≤ MAX_RETRANSMIT_DELAY
      decide
    · exact absurd h1 (by simp)
  | result s h0 _ ih =>
    intro pq hm
    rcases getQueryResult_slot_mem s h0 _ hm with h1 | h1
    · exact ih pq h1
    · exact absurd h1 (by simp)
  | cancel s h0 _ ih =>
    intro pq hm
    rcases cancelQuery_slot_mem s h0 _ hm with h1 | h1
    · exact ih pq h1
    · exact absurd h1 (by simp)
  | proc s p pl _ ih =>
    intro pq hm
    obtain ⟨a, ha, hab⟩ := forall₂_mem (process_evolve s p pl) _ hm
    rcases hab with h1 | h1 | ⟨addrs, h1⟩ | ⟨pq0, nm, ha0, h1⟩
    · rw [← h1] at ha
      exact ih pq ha
    · exact absurd h1 (by simp)
    · exact absurd h1 (by simp)
    · have hpq : pq = { pq0 with name := nm } := by simpa using h1
      rw [ha0] at ha
      have := ih pq0 ha
      rw [hpq]
      exact this
  | disp s cx emit r _ hd ih =>
    unfold dispatch at hd
    rcases hds : dispatchSlots s.servers (s.hop_limit.getD 64) cx emit s.queries
      with _ | ⟨r1, qs1⟩
    · rw [hds] at hd
      cases hd
    · rw [hds] at hd
      simp only [Option.map] at hd
      cases hd
      exact dispatchSlots_delayInv _ _ _ _ s.queries r1 qs1 hds ih

/-- A reachable one-slot socket holding a fresh pending query. -/
def c5sock : DnsSocket := (startQueryRaw (newSocket [[10, 0, 0, 1]] false 1) wCx [0]).2

/-- Witness for C5: the freshly started query's delay is within bounds. -/
theorem c5_witness :
    RETRANSMIT_DELAY ≤ (freshPending wCx [0]).delay ∧
    (freshPending wCx [0]).delay ≤ MAX_RETRANSMIT_DELAY :=
  c5_delay_in_range c5sock
    (Reachable.startRaw (newSocket [[10, 0, 0, 1]] false 1) wCx [0]
      (Reachable.new [[10, 0, 0, 1]] false 1 (by decide)))
    (freshPending wCx [0]) (by decide)

theorem startQueryRaw_servers (s : DnsSocket) (cx : Context) (raw : List Nat) :
    (startQueryRaw s cx raw).2.servers = s.servers := by
  unfold startQueryRaw
  rcases hfq : findFreeQuery s with e | ⟨h, s1⟩
  · rfl
  · have hs1 : s1.servers = s.servers := by
      unfold findFreeQuery at hfq
      rcases hfn : firstNone s.queries with _ | i
      · rw [hfn] at hfq
        by_cases how : s.queriesOwned = true
        · rw [if_pos how] at hfq
          cases hfq
          rfl
        · rw [if_neg how] at hfq
          cases hfq
      · rw [hfn] at hfq
        cases hfq
        rfl
    by_cases hlen : raw.length ≤ MAX_NAME_LEN
    · simp only [if_pos hlen]
      exact hs1
    · simp only [if_neg hlen]
      exact hs1

theorem getQueryResult_servers (s : DnsSocket) (h0 : Nat) :
    (getQueryResult s h0).2.servers = s.servers := by
  unfold getQueryResult
  rcases hq : s.queries.get? h0 with _ | q
  · rfl
  · match q with
    | none => rfl
    | some (.pending _) => rfl
    | some (.completed a) => rfl
    | some .failure => rfl

theorem cancelQuery_servers (s : DnsSocket) (h0 : Nat) :
    (cancelQuery s h0).2.servers = s.servers := by
  unfold cancelQuery
  rcases hq : s.queries.get? h0 with _ | q
  · rfl
  · match q with
    | none => rfl
    | some st => rfl

theorem process_servers (s : DnsSocket) (p : Nat) (pl : List Nat) :
    (process s p pl).2.servers = s.servers := by
  unfold process
  by_cases h1 : pl.length < 12
  · rw [if_pos h1]
  · rw [if_neg h1]
    by_cases h2 : opcodeOf pl ≠ 0
    · rw [if_pos h2]
    · rw [if_neg h2]
      by_cases h3 : ¬responseBit pl = true
      · rw [if_pos h3]
      · rw [if_neg h3]
        by_cases h4 : questionCount pl ≠ 1
        · rw [if_pos h4]
        · rw [if_neg h4]

theorem visitPending_overflow (servers : List IpAddress) (now : Nat) (pq : PendingQuery)
    (h : servers.length ≤ pq.server_idx) :
    visitPending servers now pq = .toFailure := by
  unfold visitPending
  have h2 : servers.length ≤ (armFire now pq).server_idx :=
    le_trans h (armFire_fields now pq).2.2.2.2
  rw [if_pos h2]

/-- The spec's `server_idx ≤ len(resolvers)` bound over a slot list. -/
def idxInvL (servers : List IpAddress) (qs : List (Option QueryState)) : Prop :=
  ∀ pq, some (QueryState.pending pq) ∈ qs → pq.server_idx ≤ servers.length

theorem idxInvL_cons {servers : List IpAddress} {q : Option QueryState}
    {qs : List (Option QueryState)} (h : idxInvL servers (q :: qs)) : idxInvL servers qs :=
  fun pq hm => h pq (List.mem_cons_of_mem _ hm)

theorem dispatchSlots_idxInv (servers : List IpAddress) (hop : Nat) (cx : Context)
    (emit : EmitData → Except Error Unit) :
    ∀ (qs : List (Option QueryState)) (r : Except Error Unit) (qs' : List (Option QueryState)),
      dispatchSlots servers hop cx emit qs = some (r, qs') →
      idxInvL servers qs → idxInvL servers qs' := by
  intro qs
  induction qs with
  | nil =>
    intro r qs' heq _
    cases heq
    intro pq hm
    exact absurd hm (by simp)
  | cons q rest ih =>
    intro r qs' heq hinv
    have hrestinv := idxInvL_cons hinv
    match q with
    | none =>
      rcases hrec : dispatchSlots servers hop cx emit rest with _ | ⟨r1, rest1⟩
      · rw [dispatchSlots, hrec] at heq
        cases heq
      · rw [dispatchSlots, hrec] at heq
        simp only [Option.map] at heq
        cases heq
        intro pq hm
        rcases List.mem_cons.1 hm with hm0 | hmr
        · exact absurd hm0 (by simp)
        · exact ih _ _ hrec hrestinv pq hmr
    | some (.completed a) =>
      rcases hrec : dispatchSlots servers hop cx emit rest with _ | ⟨r1, rest1⟩
      · rw [dispatchSlots, hrec] at heq
        cases heq
      · rw [dispatchSlots, hrec] at heq
        simp only [Option.map] at heq
        cases heq
        intro pq hm
        rcases List.mem_cons.1 hm with hm0 | hmr
        · exact absurd hm0 (by simp)
        · exact ih _ _ hrec hrestinv pq hmr
    | some .failure =>
      rcases hrec : dispatchSlots servers hop cx emit rest with _ | ⟨r1, rest1⟩
      · rw [dispatchSlots, hrec] at heq
        cases heq
      · rw [dispatchSlots, hrec] at heq
        simp only [Option.map] at heq
        cases heq
        intro pq hm
        rcases List.mem_cons.1 hm with hm0 | hmr
        · exact absurd hm0 (by simp)
        · exact ih _ _ hrec hrestinv pq hmr
    | some (.pending pq0) =>
      rcases visitPending_cases servers cx.now pq0 with hv | ⟨hlt, hv | hv⟩
      · rcases hrec : dispatchSlots servers hop cx emit rest with _ | ⟨r1, rest1⟩
        · rw [dispatchSlots, hv, hrec] at heq
          cases heq
        · rw [dispatchSlots, hv, hrec] at heq
          simp only [Option.map] at heq
          cases heq
          intro pq hm
          rcases List.mem_cons.1 hm with hm0 | hmr
          · exact absurd hm0 (by simp)
          · exact ih _ _ hrec hrestinv pq hmr
      · rcases hrec : dispatchSlots servers hop cx emit rest with _ | ⟨r1, rest1⟩
        · rw [dispatchSlots, hv, hrec] at heq
          cases heq
        · rw [dispatchSlots, hv, hrec] at heq
          simp only [Option.map] at heq
          cases heq
          intro pq hm
          rcases List.mem_cons.1 hm with hm0 | hmr
          · have hpq : pq = armFire cx.now pq0 := by simpa using hm0
            rw [hpq]
            omega
          · exact ih _ _ hrec hrestinv pq hmr
      · rw [dispatchSlots, hv] at heq
        simp only [] at heq
        rcases hsrc : cx.sourceAddr (servers.getD (armFire cx.now pq0).server_idx [])
          with _ | src
        · rw [hsrc] at heq
          cases heq
        · rw [hsrc] at heq
          simp only [] at heq
          rcases hem : emit ⟨src, servers.getD (armFire cx.now pq0).server_idx [], hop,
              (armFire cx.now pq0).port, (armFire cx.now pq0).txid,
              (armFire cx.now pq0).name⟩ with ee | u
          · rw [hem] at heq
            simp only [] at heq
            cases heq
            intro pq hm
            rcases List.mem_cons.1 hm with hm0 | hmr
            · have hpq : pq = armFire cx.now pq0 := by simpa using hm0
              rw [hpq]
              omega
            · exact hrestinv pq hmr
          · rw [hem] at heq
            simp only [] at heq
            cases heq
            intro pq hm
            rcases List.mem_cons.1 hm with hm0 | hmr
            · have hpq : pq = advanceBackoff cx.now (armFire cx.now pq0) := by
                simpa using hm0
              rw [hpq]
              show (armFire cx.now pq0).server_idx ≤ servers.length
              omega
            · exact hrestinv pq hmr

theorem dispatchSlots_overflow (servers : List IpAddress) (hop : Nat) (cx : Context)
    (emit : EmitData → Except Error Unit) :
    ∀ (qs : List (Option QueryState)) (r : Except Error Unit)
      (qs' : List (Option QueryState)) (i : Nat) (pq : PendingQuery),
      dispatchSlots servers hop cx emit qs = some (r, qs') →
      qs.get? i = some (some (.pending pq)) →
      servers.length ≤ pq.server_idx →
      qs'.get? i = some (some .failure) ∨ qs'.get? i = qs.get? i := by
  intro qs
  induction qs with
  | nil =>
    intro r qs' i pq _ hi _
    cases i <;> simp [List.get?] at hi
  | cons q rest ih =>
    intro r qs' i pq heq hi hover
    match i with
    | 0 =>
      have hq : q = some (.pending pq) := by simpa [List.get?] using hi
      subst hq
      have hv := visitPending_overflow servers cx.now pq hover
      rcases hrec : dispatchSlots servers hop cx emit rest with _ | ⟨r1, rest1⟩
      · rw [dispatchSlots, hv, hrec] at heq
        cases heq
      · rw [dispatchSlots, hv, hrec] at heq
        simp only [Option.map] at heq
        cases heq
        left
        rfl
    | j + 1 =>
      have hj : rest.get? j = some (some (.pending pq)) := by simpa [List.get?] using hi
      match q with
      | none =>
        rcases hrec : dispatchSlots servers hop cx emit rest with _ | ⟨r1, rest1⟩
        · rw [dispatchSlots, hrec] at heq
          cases heq
        · rw [dispatchSlots, hrec] at heq
          simp only [Option.map] at heq
          cases heq
          exact ih _ _ j pq hrec hj hover
      | some (.completed a) =>
        rcases hrec : dispatchSlots servers hop cx emit rest with _ | ⟨r1, rest1⟩
        · rw [dispatchSlots, hrec] at heq
          cases heq
        · rw [dispatchSlots, hrec] at heq
          simp only [Option.map] at heq
          cases heq
          exact ih _ _ j pq hrec hj hover
      | some .failure =>
        rcases hrec : dispatchSlots servers hop cx emit rest with _ | ⟨r1, rest1⟩
        · rw [dispatchSlots, hrec] at heq
          cases heq
        · rw [dispatchSlots, hrec] at heq
          simp only [Option.map] at heq
          cases heq
          exact ih _ _ j pq hrec hj hover
      | some (.pending pq0) =>
        rcases hv0 : visitPending servers cx.now pq0 with _ | pqw | pqr
        · rcases hrec : dispatchSlots servers hop cx emit rest with _ | ⟨r1, rest1⟩
          · rw [dispatchSlots, hv0, hrec] at heq
            cases heq
          · rw [dispatchSlots, hv0, hrec] at heq
            simp only [Option.map] at heq
            cases heq
            exact ih _ _ j pq hrec hj hover
        · rcases hrec : dispatchSlots servers hop cx emit rest with _ | ⟨r1, rest1⟩
          · rw [dispatchSlots, hv0, hrec] at heq
            cases heq
          · rw [dispatchSlots, hv0, hrec] at heq
            simp only [Option.map] at heq
            cases heq
            exact ih _ _ j pq hrec hj hover
        · rw [dispatchSlots, hv0] at heq
          simp only [] at heq
          rcases hsrc : cx.sourceAddr (servers.getD pqr.server_idx []) with _ | src
          · rw [hsrc] at heq
            cases heq
          · rw [hsrc] at heq
            simp only [] at heq
            rcases hem : emit ⟨src, servers.getD pqr.server_idx [], hop,
                pqr.port, pqr.txid, pqr.name⟩ with ee | u
            · rw [hem] at heq
              simp only [] at heq
              cases heq
              right
              rfl
            · rw [hem] at heq
              simp only [] at heq
              cases heq
              right
              rfl

theorem reachableNS_idxInv (s : DnsSocket) (hr : ReachableNS s) :
    ∀ pq, some (QueryState.pending pq) ∈ s.queries → pq.server_idx ≤ s.servers.length := by
  induction hr with
  | new servers owned n hn =>
    intro pq hm
    exact absurd (List.eq_of_mem_replicate hm) (by simp)
  | update s l _ hlen hmono ih =>
    intro pq hm
    exact le_trans (ih pq hm) hmono
  | hop s hl _ _ ih => exact ih
  | startRaw s cx raw _ ih =>
    intro pq hm
    rw [startQueryRaw_servers]
    rcases startQueryRaw_slot_mem s cx raw _ hm with h1 | h1 | h1
    · exact ih pq h1
    · have hpq : pq = freshPending cx raw := by simpa using h1
      rw [hpq]
      exact Nat.zero_le _
    · exact absurd h1 (by simp)
  | result s h0 _ ih =>
    intro pq hm
    rw [getQueryResult_servers]
    rcases getQueryResult_slot_mem s h0 _ hm with h1 | h1
    · exact ih pq h1
    · exact absurd h1 (by simp)
  | cancel s h0 _ ih =>
    intro pq hm
    rw [cancelQuery_servers]
    rcases cancelQuery_slot_mem s h0 _ hm with h1 | h1
    · exact ih pq h1
    · exact absurd h1 (by simp)
  | proc s p pl _ ih =>
    intro pq hm
    rw [process_servers]
    obtain ⟨a, ha, hab⟩ := forall₂_mem (process_evolve s p pl) _ hm
    rcases hab with h1 | h1 | ⟨addrs, h1⟩ | ⟨pq0, nm, ha0, h1⟩
    · rw [← h1] at ha
      exact ih pq ha
    · exact absurd h1 (by simp)
    · exact absurd h1 (by simp)
    · have hpq : pq = { pq0 with name := nm } := by simpa using h1
      rw [ha0] at ha
      rw [hpq]
      exact ih pq0 ha
  | disp s cx emit r _ hd ih =>
    unfold dispatch at hd
    rcases hds : dispatchSlots s.servers (s.hop_limit.getD 64) cx emit s.queries
      with _ | ⟨r1, qs1⟩
    · rw [hds] at hd
      cases hd
    · rw [hds] at hd
      simp only [Option.map] at hd
      cases hd
      exact dispatchSlots_idxInv _ _ _ _ s.queries r1 qs1 hds ih

/-- C2 (amended): when every `update_servers` call supplies a list at least
as long as the current one, every reachable state keeps `server_idx ≤
len(servers)` for every `Pending` slot; unconditionally, `dispatch`'s
per-slot visit of a `Pending` query whose `server_idx` is at or beyond the
server count yields the `Failure` transition, and a whole `dispatch` call
maps every such slot either to `Failure` or leaves it exactly unchanged
(when the scan stopped before reaching it). -/
theorem c2_server_idx_amended :
    (∀ s, ReachableNS s → ∀ pq, some (QueryState.pending pq) ∈ s.queries →
      pq.server_idx ≤ s.servers.length)
    ∧ (∀ (servers : List IpAddress) (now : Nat) (pq : PendingQuery),
      servers.length ≤ pq.server_idx → visitPending servers now pq = .toFailure)
    ∧ (∀ s cx emit r (i : Nat) (pq : PendingQuery), dispatch s cx emit = some r →
      s.queries.get? i = some (some (.pending pq)) →
      s.servers.length ≤ pq.server_idx →
      (r.2.queries.get? i = some (some .failure) ∨ r.2.queries.get? i = s.queries.get? i)) := by
  refine ⟨reachableNS_idxInv, visitPending_overflow, ?_⟩
  intro s cx emit r i pq hd hi hover
  unfold dispatch at hd
  rcases hds : dispatchSlots s.servers (s.hop_limit.getD 64) cx emit s.queries
    with _ | ⟨r1, qs1⟩
  · rw [hds] at hd
    cases hd
  · rw [hds] at hd
    simp only [Option.map] at hd
    cases hd
    exact dispatchSlots_overflow _ _ _ _ s.queries r1 qs1 i pq hds hi hover

/-- The fresh socket of the C2 counterexample run: two resolvers, one
borrowed slot. -/
def c2s0 : DnsSocket := newSocket [[10, 0, 0, 1], [10, 0, 0, 2]] false 1

/-- After `start_query_raw`. -/
def c2s1 : DnsSocket := (startQueryRaw c2s0 wCx [0]).2

/-- After a first successful dispatch at t = 0 (emitted to resolver 0,
backoff advanced). -/
def c2s2 : DnsSocket :=
  ⟨[[10, 0, 0, 1], [10, 0, 0, 2]], false,
   [some (.pending ⟨[0], 1, 4000, 7, some 10000, 1000, 2000, 0⟩)], none⟩

/-- The context of the second dispatch, at t = 10001 ms (after the 10 s
resolver timeout). -/
def c2cxB : Context := ⟨10001, 7, 4000, fun _ => some [192, 168, 0, 1]⟩

/-- After the second dispatch: the timeout fired, `server_idx` moved to 1,
and the query was emitted to resolver 1. -/
def c2s3 : DnsSocket :=
  ⟨[[10, 0, 0, 1], [10, 0, 0, 2]], false,
   [some (.pending ⟨[0], 1, 4000, 7, some 20001, 11001, 2000, 1⟩)], none⟩

/-- After `update_servers([])`: the pending slot still has `server_idx`
1, but the resolver list is empty. -/
def c2bad : DnsSocket := updateServers c2s3 []

/-- Some `Pending` slot's `server_idx` exceeds the server-list length. -/
def violatesIdx (s : DnsSocket) : Bool :=
  s.queries.any fun q =>
    match q with
    | some (.pending pq) => decide (s.servers.length < pq.server_idx)
    | _ => false

/-- Counterexample to C2 as stated: the state reached by `new`,
`start_query_raw`, two dispatches (the second after the 10 s resolver
timeout, moving `server_idx` to 1) and `update_servers([])` is reachable
by public operations, yet its `Pending` slot has `server_idx` = 1 >
0 = `len(servers)`. -/
theorem c2_counterexample : Reachable c2bad ∧ violatesIdx c2bad = true := by
  refine ⟨?_, by decide⟩
  have h0 : Reachable c2s0 := Reachable.new _ _ _ (by decide)
  have h1 : Reachable c2s1 := Reachable.startRaw c2s0 wCx [0] h0
  have hd1 : dispatch c2s1 wCx emitOk = some (.ok (), c2s2) := rfl
  have h2 : Reachable c2s2 := Reachable.disp c2s1 wCx emitOk (.ok (), c2s2) h1 hd1
  have hd2 : dispatch c2s2 c2cxB emitOk = some (.ok (), c2s3) := rfl
  have h3 : Reachable c2s3 := Reachable.disp c2s2 c2cxB emitOk (.ok (), c2s3) h2 hd2
  exact Reachable.update c2s3 [] h3 (by decide)

/-- A socket for the C2 witness whose pending slot's `server_idx` is
already beyond the (empty) server list. -/
def c2overSock : DnsSocket := ⟨[], false, [some (.pending ⟨[0], 1, 4000, 7, none, 0, 1000, 1⟩)], none⟩

/-- Witness for the amended C2: the invariant instantiated at a concrete
NS-reachable state, the overflow visit at a concrete query, and a concrete
dispatch turning an overflowed slot into `Failure`. -/
theorem c2_witness :
    (freshPending wCx [0]).server_idx ≤ c2s1.servers.length
    ∧ visitPending [] 0 ⟨[0], 1, 4000, 7, none, 0, 1000, 1⟩ = .toFailure
    ∧ ((⟨[], false, [some .failure], none⟩ : DnsSocket).queries.get? 0 =
          some (some .failure)
        ∨ (⟨[], false, [some .failure], none⟩ : DnsSocket).queries.get? 0 =
          c2overSock.queries.get? 0) :=
  ⟨c2_server_idx_amended.1 c2s1
      (ReachableNS.startRaw c2s0 wCx [0] (ReachableNS.new _ _ _ (by decide)))
      (freshPending wCx [0]) (by decide),
   c2_server_idx_amended.2.1 [] 0 ⟨[0], 1, 4000, 7, none, 0, 1000, 1⟩ (by decide),
   c2_server_idx_amended.2.2 c2overSock wCx emitOk
      (.error .exhausted, ⟨[], false, [some .failure], none⟩) 0
      ⟨[0], 1, 4000, 7, none, 0, 1000, 1⟩ rfl rfl (by decide)⟩

theorem dispatchSlots_emit_err (servers : List IpAddress) (hop : Nat) (cx : Context)
    (emit : EmitData → Except Error Unit) :
    ∀ (qs : List (Option QueryState)) (i : Nat) (pq pq2 : PendingQuery)
      (src : IpAddress) (e : Error),
      (∀ j, j < i → ∀ pq', qs.get? j = some (some (.pending pq')) →
        ∀ pq2', visitPending servers cx.now pq' ≠ .ready pq2') →
      qs.get? i = some (some (.pending pq)) →
      visitPending servers cx.now pq = .ready pq2 →
      cx.sourceAddr (servers.getD pq2.server_idx []) = some src →
      emit ⟨src, servers.getD pq2.server_idx [], hop, pq2.port, pq2.txid, pq2.name⟩ =
        .error e →
      ∃ qs', dispatchSlots servers hop cx emit qs = some (.ok (), qs') ∧
        qs'.get? i = some (some (.pending pq2)) := by
  intro qs
  induction qs with
  | nil =>
    intro i pq pq2 src e _ hi _ _ _
    cases i <;> simp [List.get?] at hi
  | cons q rest ih =>
    intro i pq pq2 src e hfirst hi hready hsrc hemit
    match i with
    | 0 =>
      have hq : q = some (.pending pq) := by simpa [List.get?] using hi
      subst hq
      refine ⟨some (.pending pq2) :: rest, ?_, rfl⟩
      simp only [dispatchSlots, hready, hsrc, hemit]
    | j + 1 =>
      have hj : rest.get? j = some (some (.pending pq)) := by simpa [List.get?] using hi
      have hfirst' : ∀ k, k < j → ∀ pq', rest.get? k = some (some (.pending pq')) →
          ∀ pq2', visitPending servers cx.now pq' ≠ .ready pq2' := by
        intro k hk pq' hk' pq2'
        exact hfirst (k + 1) (by omega) pq' (by simpa [List.get?] using hk') pq2'
      obtain ⟨rest1, hres, hget⟩ := ih j pq pq2 src e hfirst' hj hready hsrc hemit
      match q with
      | none =>
        exact ⟨none :: rest1, by simp only [dispatchSlots, hres, Option.map], hget⟩
      | some (.completed a) =>
        exact ⟨some (.completed a) :: rest1,
          by simp only [dispatchSlots, hres, Option.map], hget⟩
      | some .failure =>
        exact ⟨some .failure :: rest1,
          by simp only [dispatchSlots, hres, Option.map], hget⟩
      | some (.pending pq0) =>
        rcases hv0 : visitPending servers cx.now pq0 with _ | pqw | pqr
        · exact ⟨some .failure :: rest1,
            by simp only [dispatchSlots, hv0, hres, Option.map], hget⟩
        · exact ⟨some (.pending pqw) :: rest1,
            by simp only [dispatchSlots, hv0, hres, Option.map], hget⟩
        · exact absurd hv0 (hfirst 0 (by omega) pq0 (by simp [List.get?]) pqr)

/-- C8: when `dispatch` reaches the emit step on the first actionable
`Pending` slot and the emit callback fails, `dispatch` returns without
error and the emitting slot keeps exactly the `Pending` state it had when
`emit` was called (its `retransmit_at`, `delay`, armed/fired `timeout_at`,
`server_idx`, `txid` and `port` are untouched: no backoff advance). -/
theorem c8_emit_error_keeps_slot (s : DnsSocket) (cx : Context)
    (emit : EmitData → Except Error Unit) (i : Nat) (pq pq2 : PendingQuery)
    (src : IpAddress) (e : Error)
    (hfirst : ∀ j, j < i → ∀ pq', s.queries.get? j = some (some (.pending pq')) →
      ∀ pq2', visitPending s.servers cx.now pq' ≠ .ready pq2')
    (hslot : s.queries.get? i = some (some (.pending pq)))
    (hready : visitPending s.servers cx.now pq = .ready pq2)
    (hsrc : cx.sourceAddr (s.servers.getD pq2.server_idx []) = some src)
    (hemit : emit ⟨src, s.servers.getD pq2.server_idx [], s.hop_limit.getD 64,
      pq2.port, pq2.txid, pq2.name⟩ = .error e) :
    ∃ s', dispatch s cx emit = some (.ok (), s') ∧
      s'.queries.get? i = some (some (.pending pq2)) := by
  obtain ⟨qs', h1, h2⟩ := dispatchSlots_emit_err s.servers (s.hop_limit.getD 64) cx emit
    s.queries i pq pq2 src e hfirst hslot hready hsrc hemit
  refine ⟨{ s with queries := qs' }, ?_, h2⟩
  unfold dispatch
  rw [h1]
  rfl

/-- An emit callback that always fails. -/
def emitFail : EmitData → Except Error Unit := fun _ => .error .exhausted

/-- The pending state of `c6sock`'s slot after timeout arming at t = 0. -/
def c8pq2 : PendingQuery := ⟨[1, 97, 0], 1, 4000, 7, some 10000, 0, 1000, 0⟩

/-- The socket after a dispatch whose emit failed: the slot keeps `c8pq2`
(no backoff advance), and the call returned `Ok`. -/
def c8after : DnsSocket := ⟨[[10, 0, 0, 1]], false, [some (.pending c8pq2)], none⟩

/-- Witness for C8: a concrete dispatch whose emit callback fails returns
`Ok` and keeps the slot's armed pre-emit state. -/
theorem c8_witness :
    dispatch c6sock wCx emitFail = some (.ok (), c8after)
    ∧ c8after.queries.get? 0 = some (some (.pending c8pq2)) := by
  obtain ⟨s', h1, h2⟩ := c8_emit_error_keeps_slot c6sock wCx emitFail 0
    ⟨[1, 97, 0], 1, 4000, 7, none, 0, 1000, 0⟩ c8pq2 [192, 168, 0, 1] .exhausted
    (fun j hj => absurd hj (Nat.not_lt_zero j))
    rfl rfl rfl rfl
  have heq : (some (Except.ok (), c8after) : Option (Except Error Unit × DnsSocket)) =
      some (Except.ok (), s') :=
    (show dispatch c6sock wCx emitFail = some (.ok (), c8after) from rfl).symm.trans h1
  cases heq
  exact ⟨h1, h2⟩

end DnsSpec
